import Mathlib

/-!
Verification of the ECARE Entity Resolution and Reconciliation Engine.

The definitions below are a shallow embedding of the Python modules
`src/resolve/resolve_persons.py`, `src/resolve/merge_entities.py` and the
parts of `src/utils/common.py` they use.  Strings are modelled as Lean
`String`/`List Char` (code points, matching CPython `str` comparison for the
ASCII data the pipeline handles), numbers that Python stores as int/float are
modelled as `Int`/`ℚ` (the comparisons performed by the code involve small
rationals, where IEEE doubles and exact rationals agree), SQLite tables are
modelled as Lean lists of rows, and JSON payloads are modelled in parsed
form.  Timestamps (`now_iso()`) are threaded as an explicit string argument.
-/

namespace ECARE

/-! ## Kernel-reducible rational arithmetic

`Rat.add`, `Rat.mul` and `Rat.inv` are `@[irreducible]`, which blocks
`decide` on concrete inputs; the helpers below are extensionally equal
reformulations through `Rat.divInt`, which does reduce. -/

def qadd (a b : ℚ) : ℚ :=
  Rat.divInt (a.num * (b.den : ℤ) + b.num * (a.den : ℤ)) ((a.den : ℤ) * (b.den : ℤ))

def qmul (a b : ℚ) : ℚ := Rat.divInt (a.num * b.num) ((a.den : ℤ) * (b.den : ℤ))

def qdiv (a b : ℚ) : ℚ := Rat.divInt (a.num * (b.den : ℤ)) (b.num * (a.den : ℤ))

/-! ## Python string primitives -/

/-- Python `str.isspace` for the ASCII whitespace characters
(space, tab, newline, carriage return, vertical tab, form feed). -/
def pyIsSpace (c : Char) : Bool :=
  c = ' ' || c = '\t' || c = '\n' || c = '\r' || c = '\x0b' || c = '\x0c'

/-- Python `str.strip()` on a list of characters. -/
def pyStripL (s : List Char) : List Char :=
  ((s.dropWhile pyIsSpace).reverse.dropWhile pyIsSpace).reverse

/-- Worker for Python `str.split()`: `acc` is the current word, reversed. -/
def pySplitAux : List Char → List Char → List (List Char)
  | [], acc => if acc = [] then [] else [acc.reverse]
  | c :: rest, acc =>
    if pyIsSpace c then
      if acc = [] then pySplitAux rest [] else acc.reverse :: pySplitAux rest []
    else pySplitAux rest (c :: acc)

/-- Python `str.split()` (no argument): split on whitespace runs, dropping
empty fields. -/
def pySplitL (s : List Char) : List (List Char) := pySplitAux s []

/-- Python `" ".join(words)` on lists of characters. -/
def joinSpaceL : List (List Char) → List Char
  | [] => []
  | [w] => w
  | w :: ws => w ++ ' ' :: joinSpaceL ws

/-- Python `str.lower()` (ASCII). -/
def pyLowerL (s : List Char) : List Char := s.map Char.toLower

/-- Python `sub in s` substring test. -/
def pyInfix (sub s : List Char) : Bool := decide (sub <:+: s)

/-- Python `s.endswith(t)`. -/
def pyEndsWith (t s : List Char) : Bool := t.isSuffixOf s

/-- Python `s.startswith(t)`; returns the remainder on success. -/
def pyDropPrefix (t s : List Char) : Option (List Char) :=
  match t, s with
  | [], s => some s
  | _ :: _, [] => none
  | a :: ts, b :: ss => if a = b then pyDropPrefix ts ss else none

def pyStartsWith (t s : List Char) : Bool := (pyDropPrefix t s).isSome

/-! ## Name normalizer (`resolve_persons.normalize_name`) -/

/-- The professional-suffix list of `normalize_name`, in source order. -/
def NAME_SUFFIXES : List (List Char) :=
  [", Esq.", " Esq.", ", Jr.", " Jr.", ", Sr.", " Sr.",
   ", III", " III", ", II", " II", ", IV", " IV",
   ", M.D.", " M.D.", ", Ph.D.", " Ph.D.", ", J.D.", " J.D."].map String.toList

/-- The suffix-stripping `for` loop of `normalize_name`: each suffix in the
list is tested once, in order, against the current string. -/
def stripNameSuffixes (s : List Char) : List Char :=
  NAME_SUFFIXES.foldl
    (fun s suf =>
      if pyEndsWith suf s then pyStripL (s.take (s.length - suf.length)) else s)
    s

/-- The `"LAST, FIRST MIDDLE"` rewrite of `normalize_name`:
`s.split(",", 1)` and swap, when both halves are nonempty after stripping. -/
def commaRewrite (s : List Char) : List Char :=
  if ',' ∈ s then
    let last := pyStripL (s.takeWhile (fun c => c ≠ ','))
    let firstMiddle := pyStripL ((s.dropWhile (fun c => c ≠ ',')).drop 1)
    if firstMiddle ≠ [] ∧ last ≠ [] then firstMiddle ++ ' ' :: last else s
  else s

/-- One attempted match of the regex `\s*\([^)]*\)\s*` anchored at the start
of `s`; on success returns the rest of the string after the match.  The
pattern is exact under maximal munch because `\s`, `[^)]` and the literal
parentheses are disjoint at each choice point. -/
def parenMatchRest (s : List Char) : Option (List Char) :=
  match s.dropWhile pyIsSpace with
  | [] => none
  | c :: r =>
    if c = '(' then
      match r.dropWhile (fun d => d ≠ ')') with
      | [] => none
      | d :: r2 => if d = ')' then some (r2.dropWhile pyIsSpace) else none
    else none

/-- Worker for `parenSub`, structurally recursive on a fuel argument so that
it evaluates by kernel reduction; the fuel is always at least the length of
the string, and every step consumes at least one character. -/
def parenSubGo : Nat → List Char → List Char
  | 0, s => s
  | fuel + 1, s =>
    match parenMatchRest s with
    | some r => ' ' :: parenSubGo fuel r
    | none =>
      match s with
      | [] => []
      | c :: rest => c :: parenSubGo fuel rest

/-- Python `re.sub(r'\s*\([^)]*\)\s*', ' ', s)`: scan left to right, replace
each (leftmost) match by a single space. -/
def parenSub (s : List Char) : List Char := parenSubGo s.length s

/-- `resolve_persons.normalize_name`, on character lists. -/
def normalizeL (s : List Char) : List Char :=
  if s = [] then []
  else
    let s1 := pyStripL s
    let s2 := stripNameSuffixes s1
    let s3 := commaRewrite s2
    let s4 := parenSub s3
    joinSpaceL (pySplitL s4)

/-- `resolve_persons.normalize_name` on strings. -/
def normalize_name (s : String) : String :=
  String.mk (normalizeL s.toList)

/-- `resolve_persons.get_short_name`: first + last token of the normalized
name, when it has more than two tokens. -/
def get_short_name (s : String) : String :=
  let n := normalizeL s.toList
  let parts := pySplitL n
  if parts.length ≤ 2 then String.mk n
  else String.mk (joinSpaceL [parts.headD [], parts.getLastD []])

/-- Python `str.strip()` on strings. -/
def pyStripS (s : String) : String := String.mk (pyStripL s.toList)

/-- Python `str.lower()` on strings (ASCII). -/
def pyLowerS (s : String) : String := String.mk (pyLowerL s.toList)

/-! ## Noise classifier (`resolve_persons`) -/

/-- `NOISE_SUBSTRINGS` from `resolve_persons.py`, in source order. -/
def NOISE_SUBSTRINGS : List String :=
  ["unknown person", "unknown company", "unknown organization",
   "unidentified", "unnamed", "redacted", "sealed",
   "various ", "multiple ", "participants", "attendees",
   "author", "narrator", "reporter",
   "plaintiff", "defendant", "witness", "victim", "employee",
   "the government", "the court", "prosecution", "defense counsel",
   "security clearance", "technology industry"]

/-- `resolve_persons.looks_like_non_entity`.  The alphabetic-ratio test
`alpha / len(s) < 0.35` is modelled exactly as the rational comparison
`20 * alpha < 7 * len`; for the magnitudes involved (`len ≤ 90`) the IEEE
double comparison performed by Python agrees with the exact rational one. -/
def looks_like_non_entity (name : String) : Bool :=
  if name = "" then true
  else
    let s := pyStripL name.toList
    if s = [] then true
    else if s.contains '\n' || s.contains '\t' then true
    else if pyInfix "http://".toList (pyLowerL s) ||
            pyInfix "https://".toList (pyLowerL s) then true
    else if s.contains '@' && s.contains '.' then true
    else if s.length > 90 || (pySplitL s).length > 7 then true
    else
      let alpha := (s.filter Char.isAlpha).length
      if alpha = 0 then true
      else if s.length ≥ 25 && 20 * alpha < 7 * s.length then true
      else false

/-- Python regex `\w` (ASCII word character). -/
def isWordChar (c : Char) : Bool := c.isAlphanum || c = '_'

/-- A `\b` word boundary placed after a word character: the next character
must be absent or a non-word character. -/
def wordBoundaryAfter : List Char → Bool
  | [] => true
  | c :: _ => !isWordChar c

/-- `^unknown(\s+(person|individual|man|woman|company|organization))?$`
applied to the lowered normalized name (which contains no newline, so `$`
is end-of-string). -/
def rxUnknown (s : List Char) : Bool :=
  match pyDropPrefix "unknown".toList s with
  | none => false
  | some r =>
    r.isEmpty ||
      (!(r.takeWhile pyIsSpace).isEmpty &&
        (["person", "individual", "man", "woman", "company", "organization"].map
          String.toList).contains (r.dropWhile pyIsSpace))

/-- `^(w₁|w₂|…)\b` for literal words ending in a word character. -/
def rxStartsWordOf (ws : List String) (s : List Char) : Bool :=
  ws.any fun w =>
    match pyDropPrefix w.toList s with
    | some r => wordBoundaryAfter r
    | none => false

/-- `^(r₁|r₂|…)\s*[#]?\d+\b` for literal role words. -/
def rxRoleNumber (roles : List String) (s : List Char) : Bool :=
  roles.any fun w =>
    match pyDropPrefix w.toList s with
    | none => false
    | some r =>
      let r1 := r.dropWhile pyIsSpace
      let r2 := match r1 with | '#' :: t => t | _ => r1
      !(r2.takeWhile Char.isDigit).isEmpty &&
        wordBoundaryAfter (r2.dropWhile Char.isDigit)

/-- `^(john|jane)\s+doe\s*[#]?\d+\b`. -/
def rxDoeNumber (s : List Char) : Bool :=
  (["john", "jane"].map String.toList).any fun w =>
    match pyDropPrefix w s with
    | none => false
    | some r =>
      !(r.takeWhile pyIsSpace).isEmpty &&
        (match pyDropPrefix "doe".toList (r.dropWhile pyIsSpace) with
         | none => false
         | some r2 =>
           let r3 := r2.dropWhile pyIsSpace
           let r4 := match r3 with | '#' :: t => t | _ => r3
           !(r4.takeWhile Char.isDigit).isEmpty &&
             wordBoundaryAfter (r4.dropWhile Char.isDigit))

/-- `^\(b\)\(\d+\)`. -/
def rxRedactionCode (s : List Char) : Bool :=
  match pyDropPrefix "(b)(".toList s with
  | none => false
  | some r =>
    !(r.takeWhile Char.isDigit).isEmpty &&
      (match r.dropWhile Char.isDigit with | ')' :: _ => true | _ => false)

/-- `resolve_persons.is_noise_entity_name`. -/
def is_noise_entity_name (name : String) : Bool :=
  if looks_like_non_entity name then true
  else
    let lowered := pyStripL (pyLowerL (normalizeL name.toList))
    if lowered.isEmpty then true
    else if NOISE_SUBSTRINGS.any (fun sub => pyInfix sub.toList lowered) then true
    else
      rxUnknown lowered ||
      rxStartsWordOf ["unidentified", "unnamed"] lowered ||
      rxStartsWordOf ["various", "multiple"] lowered ||
      rxRoleNumber ["employee", "victim", "witness"] lowered ||
      rxDoeNumber lowered ||
      rxRedactionCode lowered

/-- One alternative of `NUMBERED_PATTERN` tried at the current position of
the (lowered) string: `(?:jane|john)\s+doe\s*[#]?\d`. -/
def numberedAltDoe (s : List Char) : Bool :=
  (["jane", "john"].map String.toList).any fun w =>
    match pyDropPrefix w s with
    | none => false
    | some r =>
      !(r.takeWhile pyIsSpace).isEmpty &&
        (match pyDropPrefix "doe".toList (r.dropWhile pyIsSpace) with
         | none => false
         | some r2 =>
           let r3 := r2.dropWhile pyIsSpace
           let r4 := match r3 with | '#' :: t => t | _ => r3
           match r4 with | d :: _ => d.isDigit | [] => false)

/-- `employee[- ]?\d` at the current position. -/
def numberedAltEmployee (s : List Char) : Bool :=
  match pyDropPrefix "employee".toList s with
  | none => false
  | some r =>
    let r1 := match r with | '-' :: t => t | ' ' :: t => t | _ => r
    match r1 with | d :: _ => d.isDigit | [] => false

/-- `detective\s*\d` at the current position. -/
def numberedAltDetective (s : List Char) : Bool :=
  match pyDropPrefix "detective".toList s with
  | none => false
  | some r =>
    match r.dropWhile pyIsSpace with | d :: _ => d.isDigit | [] => false

/-- `victim\s*[#]?\d` at the current position. -/
def numberedAltVictim (s : List Char) : Bool :=
  match pyDropPrefix "victim".toList s with
  | none => false
  | some r =>
    let r1 := r.dropWhile pyIsSpace
    let r2 := match r1 with | '#' :: t => t | _ => r1
    match r2 with | d :: _ => d.isDigit | [] => false

/-- `NUMBERED_PATTERN` matched at the current position. -/
def numberedAt (s : List Char) : Bool :=
  numberedAltDoe s || numberedAltEmployee s || numberedAltDetective s ||
    numberedAltVictim s

/-- `re.search` of `NUMBERED_PATTERN`: try every position. -/
def numberedSearch (s : List Char) : Bool :=
  numberedAt s ||
    (match s with
     | [] => false
     | _ :: rest => numberedSearch rest)

/-- `resolve_persons.is_numbered_reference` (the pattern is compiled with
`re.IGNORECASE`, modelled by lowering the input first). -/
def is_numbered_reference (name : String) : Bool :=
  numberedSearch (pyLowerL name.toList)

/-! ## Fuzzy scorer: `rapidfuzz` `fuzz.token_sort_ratio` -/

/-- Python string `<` (lexicographic by code point). -/
def pyStrLt : List Char → List Char → Bool
  | [], [] => false
  | [], _ :: _ => true
  | _ :: _, [] => false
  | a :: as1, b :: bs1 => if a = b then pyStrLt as1 bs1 else decide (a < b)

/-- Stable insertion into an already sorted list (the new element goes after
every element `b` with `le b a`), matching the stability of Python sorts. -/
def insertSorted {α : Type} (le : α → α → Bool) (a : α) : List α → List α
  | [] => [a]
  | b :: bs => if le b a then b :: insertSorted le a bs else a :: b :: bs

/-- Stable sort (insertion sort, processing elements left to right). -/
def pySortBy {α : Type} (le : α → α → Bool) (l : List α) : List α :=
  l.foldl (fun acc a => insertSorted le a acc) []

/-- `token_sort`: split on whitespace, sort the tokens, rejoin with single
spaces. -/
def sortTokens (s : String) : String :=
  String.mk (joinSpaceL (pySortBy (fun a b => !pyStrLt b a) (pySplitL s.toList)))

/-- One row update of the longest-common-subsequence dynamic program.
Arguments: remaining characters of `b`, the tail of the previous row
starting at the current column, and the value just computed for the new
row. -/
def lcsStep (c : Char) : List Char → List Nat → Nat → List Nat
  | [], _, _ => []
  | bj :: bs, prev, cur =>
    let pj := prev.headD 0
    let pj1 := prev.tail.headD 0
    let nj1 := if c = bj then pj + 1 else max cur pj1
    nj1 :: lcsStep c bs prev.tail nj1

/-- Length of the longest common subsequence of two character lists. -/
def lcsLen (a b : List Char) : Nat :=
  (a.foldl (fun row c => 0 :: lcsStep c b row 0) (List.replicate (b.length + 1) 0)).getLastD 0

/-- `rapidfuzz` `fuzz.ratio`: normalized Indel similarity in `[0, 100]`,
`100 · 2·lcs/(|a|+|b|)`, and `100` for two empty strings. -/
def indelScore (a b : List Char) : ℚ :=
  if a.length + b.length = 0 then 100
  else Rat.divInt ((200 * lcsLen a b : ℕ) : ℤ) ((a.length + b.length : ℕ) : ℤ)

/-- `fuzz.token_sort_ratio` as used by the resolver (no extra processor). -/
def token_sort_score (a b : String) : ℚ :=
  indelScore (sortTokens a).toList (sortTokens b).toList

/-- `rapidfuzz.process.extractOne` worker: scan the choices keeping the
first choice attaining the maximal score (replacement only on a strictly
greater score). -/
def extractBest (query : String) : List String → Nat →
    Option (String × ℚ × Nat) → Option (String × ℚ × Nat)
  | [], _, best => best
  | c :: cs, i, best =>
    let sc := token_sort_score query c
    let best1 :=
      match best with
      | none => some (c, sc, i)
      | some (bn, bs, bi) => if sc > bs then some (c, sc, i) else some (bn, bs, bi)
    extractBest query cs (i + 1) best1

/-- `process.extractOne(query, choices, scorer=token_sort_ratio,
score_cutoff=cutoff)`: the best (first maximal) choice, provided its score
reaches the cutoff. -/
def extractOne (query : String) (choices : List String) (cutoff : ℚ) :
    Option (String × ℚ × Nat) :=
  match extractBest query choices 0 none with
  | none => none
  | some (n, sc, i) => if sc ≥ cutoff then some (n, sc, i) else none

/-! ## `EntityResolver` -/

/-- One canonical-registry entry as consumed by the resolver. -/
structure RegEntry where
  canonical_name : String
  aliases : List String
  entity_type : String
deriving DecidableEq

/-- The resolver's state: the registry plus the lookup structures built by
`EntityResolver.__init__`.  `exact_lookup` is a Python dict modelled as the
list of inserts (last write wins); `all_names` is the `(name, id)` list used
for fuzzy matching (`_name_strings` is its first projection). -/
structure Resolver where
  registry : List (String × RegEntry)
  fuzzy_threshold : ℚ
  exact_lookup : List (String × String)
  all_names : List (String × String)
deriving DecidableEq

/-- Lookup in the modelled Python dict: the last insert for the key. -/
def dictGetLast (d : List (String × String)) (k : String) : Option String :=
  (d.reverse.find? (fun p => p.1 = k)).map (fun p => p.2)

/-- `EntityResolver._index_name`. -/
def indexName (r : Resolver) (name cid : String) : Resolver :=
  let r1 := { r with
    exact_lookup := r.exact_lookup ++ [(pyLowerS name, cid)],
    all_names := r.all_names ++ [(name, cid)] }
  let norm := pyLowerS (normalize_name name)
  let r2 :=
    if norm ≠ "" ∧ norm ≠ pyLowerS name then
      { r1 with
        exact_lookup := r1.exact_lookup ++ [(norm, cid)],
        all_names := r1.all_names ++ [(normalize_name name, cid)] }
    else r1
  let short := pyLowerS (get_short_name name)
  if short ≠ "" ∧ short ≠ pyLowerS name ∧ short ≠ norm then
    { r2 with
      exact_lookup := r2.exact_lookup ++ [(short, cid)],
      all_names := r2.all_names ++ [(get_short_name name, cid)] }
  else r2

/-- `EntityResolver.__init__`: index every canonical name and alias. -/
def mkResolver (registry : List (String × RegEntry)) (threshold : ℚ) : Resolver :=
  registry.foldl
    (fun r p =>
      let r1 := indexName r p.2.canonical_name p.1
      p.2.aliases.foldl (fun r a => if a ≠ "" then indexName r a p.1 else r) r1)
    { registry := registry, fuzzy_threshold := threshold,
      exact_lookup := [], all_names := [] }

/-- Tier 1 of `EntityResolver.resolve`, for a form found in the exact
lookup: `"exact"` when the form is the target's canonical name
(case-insensitively), `"alias"` otherwise. -/
def exactTier (r : Resolver) (form : String) : Option String × String × ℚ :=
  match dictGetLast r.exact_lookup form with
  | some cid =>
    let cname :=
      (((r.registry.find? (fun p => p.1 = cid)).map
        (fun p => p.2.canonical_name)).getD "")
    if form = pyLowerS cname then (some cid, "exact", 1)
    else (some cid, "alias", mkRat 95 100)
  | none => (none, "no_match", 0)

/-- Tier 2 of `EntityResolver.resolve`: `process.extractOne` over the
indexed names with the configured cutoff, then the short-name guard
(score at least 95 required when the normalized input is at most 10
characters). -/
def fuzzyTier (r : Resolver) (normalized : String) : Option String × String × ℚ :=
  match extractOne normalized (r.all_names.map (fun p => p.1)) r.fuzzy_threshold with
  | none => (none, "no_match", 0)
  | some (_, score, idx) =>
    let matched_cid := (((r.all_names.get? idx).map (fun p => p.2)).getD "")
    if normalized.toList.length ≤ 10 && score < 95 then (none, "no_match", 0)
    else (some matched_cid, "fuzzy", qdiv score 100)

/-- The matching cascade of `EntityResolver.resolve` for a nonempty,
non-noise `cleaned` input: exact/alias tier on the three lowered forms,
then the numbered-reference and empty-index early exits, then the fuzzy
tier on the normalized input. -/
def resolveMatch (r : Resolver) (cleaned : String) : Option String × String × ℚ :=
  let forms := [pyLowerS cleaned, pyLowerS (normalize_name cleaned),
                pyLowerS (get_short_name cleaned)]
  match forms.find? (fun f => (dictGetLast r.exact_lookup f).isSome) with
  | some form => exactTier r form
  | none =>
    if is_numbered_reference cleaned then (none, "no_match", 0)
    else if r.all_names.isEmpty then (none, "no_match", 0)
    else fuzzyTier r (normalize_name cleaned)

/-- `EntityResolver.resolve`: result is `(canonical id or none, match
method, confidence)`. -/
def resolve (r : Resolver) (source_name : String) : Option String × String × ℚ :=
  if source_name = "" || pyStripS source_name = "" then (none, "no_match", 0)
  else
    let cleaned := pyStripS source_name
    if is_noise_entity_name cleaned then (none, "noise", 0)
    else resolveMatch r cleaned

/-! ## Merge engine name utilities (`merge_entities.py`) -/

/-- Python `str.upper()` (ASCII). -/
def pyUpperL (s : List Char) : List Char := s.map Char.toUpper

def pyUpperS (s : String) : String := String.mk (pyUpperL s.toList)

/-- `"sep".join(l)` for strings. -/
def joinWith (sep : String) : List String → String
  | [] => ""
  | [x] => x
  | x :: xs => x ++ sep ++ joinWith sep xs

/-- `TITLE_PREFIXES` from `merge_entities.py`, in source order. -/
def TITLE_PREFIXES : List String :=
  ["president ", "professor ", "prof. ", "senator ", "rep. ",
   "judge ", "justice ", "attorney ", "agent ",
   "dr. ", "mr. ", "mrs. ", "ms. ", "miss ",
   "sir ", "lord ", "lady ", "prince ", "princess ",
   "king ", "queen ", "sheikh ", "imam ",
   "general ", "colonel ", "captain ", "detective ",
   "governor ", "mayor ", "ambassador "]

/-- One pass of the `while changed` loop of `strip_titles`: every prefix in
the table is tried once, in order, against the current (re-lowered) string. -/
def stripTitlesPass (s : List Char) : List Char × Bool :=
  TITLE_PREFIXES.foldl
    (fun (p : List Char × Bool) pre =>
      if pyStartsWith pre.toList (pyLowerL p.1) then
        (pyStripL (p.1.drop pre.toList.length), true)
      else p)
    (s, false)

/-- The `while changed` loop, with fuel: every changed pass strips a
nonempty prefix, so `length + 1` passes always reach the fixed point that
the Python loop terminates on. -/
def stripTitlesGo : Nat → List Char → List Char
  | 0, s => s
  | fuel + 1, s =>
    let p := stripTitlesPass s
    if p.2 then stripTitlesGo fuel p.1 else p.1

/-- `merge_entities.strip_titles`. -/
def strip_titles (name : String) : String :=
  let s := pyStripL name.toList
  String.mk (stripTitlesGo (s.length + 1) s)

/-- Python `str.capitalize()`: first character uppercased, the rest
lowercased. -/
def pyCapitalize : List Char → List Char
  | [] => []
  | c :: r => Char.toUpper c :: pyLowerL r

/-- `merge_entities.to_title_case`.  The ratio test
`upper / alpha < 0.7` is the exact rational comparison
`10 * upper < 7 * alpha` (IEEE agrees at these magnitudes). -/
def to_title_case (name : String) : String :=
  let alpha := name.toList.filter Char.isAlpha
  if alpha.isEmpty then name
  else
    let upper := (alpha.filter Char.isUpper).length
    if 10 * upper < 7 * alpha.length then name
    else
      let parts := pySplitL name.toList
      String.mk (joinSpaceL (parts.map (fun part =>
        if part.contains '-' then
          (joinWith "-" ((part.splitOn '-').map
            (fun w => String.mk (pyCapitalize w)))).toList
        else if pyUpperL part = part ∧ part.length ≤ 3 ∧ part.contains '.' then
          part
        else pyCapitalize part)))

/-- `merge_entities.clean_name_for_matching`. -/
def clean_name_for_matching (name : String) : String :=
  let s0 := pyStripS name
  let s1 := strip_titles s0
  let s2 := to_title_case s1
  let s3 := normalize_name s2
  let s4 := pyStripL (pyLowerL s3.toList)
  let s5 := s4.filter (fun c => c ≠ '.' ∧ c ≠ ',')
  let s6 := s5.map (fun c => if c = '-' then ' ' else c)
  let words := pySplitL s6
  let words1 :=
    if words.length ≥ 3 ∧ words.headD [] = (words.drop 1).headD [] then words.drop 1
    else words
  let words2 :=
    if words1.length ≥ 3 then
      words1.enum.filterMap (fun p =>
        if 0 < p.1 ∧ p.1 < words1.length - 1 ∧ p.2.length = 1 then none
        else some p.2)
    else words1
  let s7 := joinSpaceL words2
  String.mk (joinSpaceL (pySplitL s7))

/-! ## Expanded noise classifier (`merge_entities.py`) -/

/-- `EXPANDED_NOISE_EXACT` (a Python set; membership only). -/
def EXPANDED_NOISE_EXACT : List String :=
  ["president", "attorney", "judge", "senator", "detective",
   "agent", "officer", "prosecutor", "prosecutors", "counsel",
   "public", "communication", "journalist", "journalists",
   "applicant", "appellant", "respondent",
   "government", "state", "country",
   "federal prosecutors", "federal agents", "federal government",
   "law enforcement", "defense counsel", "legal counsel",
   "epstein case", "jeffrey epstein appellate case"]

/-- `NOISE_FIRST_NAMES`. -/
def NOISE_FIRST_NAMES : List String :=
  ["mary", "david", "sarah", "john", "james", "michael", "robert",
   "tony", "leon", "eva", "rebecca", "bruce", "roger", "ralph",
   "warren", "mark", "steve", "chris", "peter", "paul", "george",
   "jane", "tom", "joe"]

/-- `PROTECTED_SINGLE_WORDS`. -/
def PROTECTED_SINGLE_WORDS : List String :=
  ["hamas", "isis", "hezbollah", "mossad", "interpol",
   "libya", "iraq", "iran", "syria", "yemen", "qatar", "dubai",
   "harvard", "yale", "princeton", "stanford", "columbia", "mit",
   "citibank", "barclays", "jpmorgan", "wexner", "victoria"]

/-- `^\w+\s+\?$` (question-mark placeholders such as `"Roger ?"`). -/
def rxWordQuestion (s : List Char) : Bool :=
  let r := s.dropWhile isWordChar
  !(s.takeWhile isWordChar).isEmpty &&
    (!(r.takeWhile pyIsSpace).isEmpty && r.dropWhile pyIsSpace = ['?'])

/-- The `epstein\s+(case|appellate|investigation|matter)` part of the
Epstein-matter pattern, tried on an already lowered string. -/
def rxEpsteinTail (t : List Char) : Bool :=
  match pyDropPrefix "epstein".toList t with
  | none => false
  | some r =>
    !(r.takeWhile pyIsSpace).isEmpty &&
      (["case", "appellate", "investigation", "matter"].map String.toList).any
        (fun w => pyStartsWith w (r.dropWhile pyIsSpace))

/-- `^(Jeffrey\s+)?Epstein\s+(case|appellate|investigation|matter)` with
`re.IGNORECASE`, anchored by `re.match`. -/
def rxEpstein (s : List Char) : Bool :=
  let l := pyLowerL s
  (match pyDropPrefix "jeffrey".toList l with
   | some r =>
     !(r.takeWhile pyIsSpace).isEmpty && rxEpsteinTail (r.dropWhile pyIsSpace)
   | none => false) ||
  rxEpsteinTail l

/-- `^\w{1,2}$` (1–2 character strings). -/
def rxShortWord (s : List Char) : Bool :=
  (s.length = 1 || s.length = 2) && s.all isWordChar

/-- `^[A-Z]\.[A-Z]\.$` (dotted initials such as `"L.M."`). -/
def rxInitialsDotted (s : List Char) : Bool :=
  match s with
  | [a, d1, b, d2] => a.isUpper && d1 = '.' && b.isUpper && d2 = '.'
  | _ => false

/-- `merge_entities.is_expanded_noise`. -/
def is_expanded_noise (name : String) : Bool :=
  if name = "" || pyStripS name = "" then true
  else
    let s := pyStripL name.toList
    if is_noise_entity_name (String.mk s) then true
    else
      let lowered := String.mk (pyStripL (pyLowerL s))
      if PROTECTED_SINGLE_WORDS.contains lowered then false
      else if EXPANDED_NOISE_EXACT.contains lowered then true
      else if !s.contains ' ' && NOISE_FIRST_NAMES.contains lowered then true
      else if pyEndsWith " ?".toList s || (pyEndsWith "?".toList s && s.length ≤ 15) then
        true
      else
        rxWordQuestion s || rxEpstein s || rxShortWord s || rxInitialsDotted s

/-- `merge_entities._classify_noise` (the `pattern_match` reasons embed
`pat.pattern`, the regex source text). -/
def classify_noise (name : String) : String :=
  let lowered := pyLowerS (pyStripS name)
  if EXPANDED_NOISE_EXACT.contains lowered then "generic_word:" ++ lowered
  else if !(pyStripL name.toList).contains ' ' && NOISE_FIRST_NAMES.contains lowered then
    "standalone_first_name:" ++ lowered
  else if pyEndsWith " ?".toList name.toList || pyEndsWith "?".toList name.toList then
    "question_mark_placeholder"
  else if is_noise_entity_name name then "base_noise_filter"
  else if rxWordQuestion name.toList then "pattern_match:^\\w+\\s+\\?$"
  else if rxEpstein name.toList then
    "pattern_match:^(Jeffrey\\s+)?Epstein\\s+(case|appellate|investigation|matter)"
  else if rxShortWord name.toList then "pattern_match:^\\w\x7b1,2\x7d$"
  else if rxInitialsDotted name.toList then "pattern_match:^[A-Z]\\.[A-Z]\\.$"
  else "expanded_noise"

/-! ## JSON metadata values -/

/-- Parsed JSON metadata values (Python objects after `json.loads`).
`vBool` is separate from `vInt`/`vFloat` but, as in Python, participates in
numeric comparisons (`bool` subclasses `int`). -/
inductive Val where
  | vNone : Val
  | vBool : Bool → Val
  | vInt : Int → Val
  | vFloat : ℚ → Val
  | vStr : String → Val
  | vList : List Val → Val

def pyBoolInt (b : Bool) : Int := if b then 1 else 0

mutual

/-- Python `==` on metadata values (numeric cross-type equality included). -/
def pyValEq : Val → Val → Bool
  | .vNone, .vNone => true
  | .vBool x, .vBool y => x = y
  | .vBool x, .vInt y => pyBoolInt x = y
  | .vBool x, .vFloat y => ((pyBoolInt x : ℤ) : ℚ) = y
  | .vInt x, .vBool y => x = pyBoolInt y
  | .vInt x, .vInt y => x = y
  | .vInt x, .vFloat y => ((x : ℤ) : ℚ) = y
  | .vFloat x, .vBool y => x = ((pyBoolInt y : ℤ) : ℚ)
  | .vFloat x, .vInt y => x = ((y : ℤ) : ℚ)
  | .vFloat x, .vFloat y => x = y
  | .vStr x, .vStr y => x = y
  | .vList x, .vList y => pyValListEq x y
  | _, _ => false

def pyValListEq : List Val → List Val → Bool
  | [], [] => true
  | a :: as1, b :: bs1 => pyValEq a b && pyValListEq as1 bs1
  | _, _ => false

end

/-- Python truthiness of a metadata value. -/
def pyTruthy : Val → Bool
  | .vNone => false
  | .vBool b => b
  | .vInt n => n ≠ 0
  | .vFloat q => q ≠ 0
  | .vStr s => s ≠ ""
  | .vList l => !l.isEmpty

/-- `isinstance(x, (int, float))` — true for `bool` too. -/
def isPyNumber : Val → Bool
  | .vBool _ => true
  | .vInt _ => true
  | .vFloat _ => true
  | _ => false

/-- The numeric value of a `bool`/`int`/`float`, `0` otherwise. -/
def numOf : Val → ℚ
  | .vBool b => ((pyBoolInt b : ℤ) : ℚ)
  | .vInt n => ((n : ℤ) : ℚ)
  | .vFloat q => q
  | _ => 0

/-- Python `max(a, b)`: returns `b` only when `b > a` (first maximum wins). -/
def pyMaxVal (a b : Val) : Val := if numOf b > numOf a then b else a

/-- The dedup key of `_merge_metadata`'s list union:
`str(item).lower() if isinstance(item, str) else item`. -/
def valKey : Val → Val
  | .vStr s => .vStr (pyLowerS s)
  | v => v

/-- The ordered dedup union of `_merge_metadata` for list-valued fields. -/
def dedupConcat (a b : List Val) : List Val :=
  ((a ++ b).foldl
    (fun (acc : List Val × List Val) item =>
      let k := valKey item
      if acc.2.any (fun y => pyValEq y k) then acc
      else (acc.1 ++ [item], acc.2 ++ [k]))
    ([], [])).1

/-- A Python dict of metadata, modelled as an association list in insertion
order with unique keys. -/
def metaGet (m : List (String × Val)) (k : String) : Option Val :=
  (m.find? (fun p => p.1 = k)).map (fun p => p.2)

/-- `d[k] = v`: replace in place when the key exists, else append. -/
def metaSet (m : List (String × Val)) (k : String) (v : Val) : List (String × Val) :=
  if (m.find? (fun p => p.1 = k)).isSome then
    m.map (fun p => if p.1 = k then (k, v) else p)
  else m ++ [(k, v)]

/-- One iteration of the `for key, abs_val in absorbed_meta.items()` loop of
`_merge_metadata`. -/
def mergeStep (merged : List (String × Val)) (kv : String × Val) : List (String × Val) :=
  let k := kv.1
  let av := kv.2
  match metaGet merged k with
  | none => metaSet merged k av
  | some sv =>
    match sv with
    | .vNone => metaSet merged k av
    | _ =>
      if isPyNumber sv && isPyNumber av then metaSet merged k (pyMaxVal sv av)
      else
        match sv, av with
        | .vList ls, .vList la => metaSet merged k (.vList (dedupConcat ls la))
        | .vBool b1, .vBool b2 => metaSet merged k (.vBool (b1 || b2))
        | _, _ => merged

/-- `merge_entities._merge_metadata`.  `merged.get(key) is None` is true both
when the key is absent and when it is stored as JSON `null`. -/
def merge_metadata (surv absorbed : List (String × Val)) : List (String × Val) :=
  absorbed.foldl mergeStep surv

/-! ## The persisted store

Each SQLite table is a list of rows in storage order (`SELECT` without
`ORDER BY` returns insertion/rowid order).  Rows carry the columns the
modelled code reads or writes; JSON columns are stored parsed. -/

structure EntityRow where
  canonical_id : String
  entity_type : String
  canonical_name : String
  aliases : List String
  metadata : List (String × Val)
  last_updated : String

structure RelRow where
  relationship_id : Nat
  source_entity_id : String
  target_entity_id : String
  relationship_type : String
  weight : Option ℚ
  source_documents : List String
deriving DecidableEq

structure RelSourceRow where
  source_row_id : Nat
  relationship_id : Nat
deriving DecidableEq

structure LogRow where
  log_id : Nat
  canonical_id : String
deriving DecidableEq

structure MergeRow where
  survivor_id : String
  absorbed_id : String
  survivor_name : String
  absorbed_name : String
  merge_reason : String
  match_key : String
  relationships_repointed : Nat
  resolution_logs_repointed : Nat
  duplicate_rels_consolidated : Nat
  merged_at : String
deriving DecidableEq

structure DB where
  canonical_entities : List EntityRow
  relationships : List RelRow
  relationship_sources : List RelSourceRow
  entity_resolution_log : List LogRow
  entity_merges : List MergeRow

/-- `source_entity_id = ? OR target_entity_id = ?`. -/
def touches (cid : String) (r : RelRow) : Bool :=
  r.source_entity_id = cid || r.target_entity_id = cid

/-- `merge_entities._get_prominence`: connection count. -/
def get_prominence (db : DB) (cid : String) : Nat :=
  (db.relationships.filter (touches cid)).length

/-- Append-if-absent, used to model Python set accumulation
deterministically. -/
def addUnique (l : List String) (x : String) : List String :=
  if l.contains x then l else l ++ [x]

/-- `merge_entities._get_neighbors`: the set of entity ids adjacent to
`cid`, as a duplicate-free list. -/
def get_neighbors (db : DB) (cid : String) : List String :=
  (db.relationships.filter (touches cid)).foldl
    (fun acc r =>
      let acc1 := if r.source_entity_id ≠ cid then addUnique acc r.source_entity_id else acc
      if r.target_entity_id ≠ cid then addUnique acc1 r.target_entity_id else acc1)
    []

/-- `len(a & b)` for duplicate-free lists. -/
def interCount (a b : List String) : Nat := (a.filter (fun x => b.contains x)).length

/-- `len(a | b)` for duplicate-free lists. -/
def unionCount (a b : List String) : Nat := (b.foldl addUnique a).length

/-- One iteration of the candidate loop of `_disambiguate_by_graph`; the
state is `(best_overlap, best_candidate, second_best)`. -/
def disambiguateStep (db : DB) (absorbedNbrs : List String)
    (st : ℚ × Option (String × String) × ℚ) (cand : String × String) :
    ℚ × Option (String × String) × ℚ :=
  let candNbrs := get_neighbors db cand.1
  if candNbrs.isEmpty then st
  else
    let inter := interCount absorbedNbrs candNbrs
    let uni := unionCount absorbedNbrs candNbrs
    if uni = 0 then st
    else
      let j : ℚ := Rat.divInt (inter : ℤ) (uni : ℤ)
      if j > st.1 then (j, some cand, st.1)
      else if j > st.2.2 then (st.1, st.2.1, j)
      else st

/-- `merge_entities._disambiguate_by_graph`.  The floats `0.05` and the
product `second_best * 1.5` are modelled exactly; at the small denominators
produced by Jaccard ratios the IEEE comparisons agree with the exact
rational ones. -/
def disambiguate_by_graph (db : DB) (absorbed_cid : String)
    (candidates : List (String × String)) : Option (String × String) :=
  let absorbedNbrs := get_neighbors db absorbed_cid
  if absorbedNbrs.isEmpty then none
  else
    let st := candidates.foldl (disambiguateStep db absorbedNbrs) (0, none, 0)
    if st.2.1.isSome ∧ st.1 ≥ mkRat 1 20 ∧ st.1 > qmul st.2.2 (mkRat 3 2) then st.2.1
    else none

/-! ## Relationship consolidation -/

/-- `sorted([source, target])` for two strings. -/
def sortedPair (a b : String) : String × String :=
  if pyStrLt b.toList a.toList then (b, a) else (a, b)

/-- The unordered-pair-plus-type key of `_consolidate_duplicate_relationships`. -/
def relKey (r : RelRow) : String × String × String :=
  let p := sortedPair r.source_entity_id r.target_entity_id
  (p.1, p.2, r.relationship_type)

/-- Append a value to the group of key `k`, creating the group at the end on
first sight (Python `defaultdict(list)` preserves key-first-seen order). -/
def dictAppend {κ α : Type} [DecidableEq κ] : List (κ × List α) → κ → α → List (κ × List α)
  | [], k, a => [(k, [a])]
  | (k1, g) :: rest, k, a =>
    if k1 = k then (k1, g ++ [a]) :: rest else (k1, g) :: dictAppend rest k a

def groupByKey {κ α : Type} [DecidableEq κ] (key : α → κ) (l : List α) :
    List (κ × List α) :=
  l.foldl (fun gs a => dictAppend gs (key a) a) []

/-- `r["weight"] or 0`. -/
def wval (r : RelRow) : ℚ := r.weight.getD 0

/-- `UPDATE relationships SET weight = ?, source_documents = ? WHERE
relationship_id = ?`. -/
def updateRelRow (rels : List RelRow) (rid : Nat) (w : ℚ) (docs : List String) :
    List RelRow :=
  rels.map (fun r =>
    if r.relationship_id = rid then { r with weight := some w, source_documents := docs }
    else r)

def deleteRelRow (rels : List RelRow) (rid : Nat) : List RelRow :=
  rels.filter (fun r => r.relationship_id ≠ rid)

/-- `UPDATE relationship_sources SET relationship_id = ? WHERE
relationship_id = ?`. -/
def moveRelSources (srcs : List RelSourceRow) (fromRid toRid : Nat) :
    List RelSourceRow :=
  srcs.map (fun s =>
    if s.relationship_id = fromRid then { s with relationship_id := toRid } else s)

def pyDedupStr (l : List String) : List String := l.foldl addUnique []

/-- One loser iteration of `_consolidate_duplicate_relationships`.  `surv`
is the row fetched before the group loop started: the code reads the
survivor's weight and document list from that stale row on every iteration
(they are never re-read after the `UPDATE`).  CPython's `list(set(...))`
order is unspecified; it is modelled as first-occurrence order (no settled
claim depends on the order). -/
def absorbLoser (surv : RelRow) (db : DB) (loser : RelRow) : DB :=
  let mergedDocs := (pyDedupStr (surv.source_documents ++ loser.source_documents)).take 200
  let newW := qadd (wval surv) (wval loser)
  { db with
    relationships :=
      deleteRelRow (updateRelRow db.relationships surv.relationship_id newW mergedDocs)
        loser.relationship_id,
    relationship_sources :=
      moveRelSources db.relationship_sources loser.relationship_id surv.relationship_id }

/-- Handling of one `(pair, type)` group: skip singletons, sort by
descending weight (stable), keep the head, absorb the tail. -/
def processGroup (db : DB) (g : List RelRow) : DB × Nat :=
  if g.length < 2 then (db, 0)
  else
    match pySortBy (fun a b => decide (wval b ≤ wval a)) g with
    | [] => (db, 0)
    | surv :: losers => (losers.foldl (absorbLoser surv) db, losers.length)

/-- `merge_entities._consolidate_duplicate_relationships`: returns the
updated store and the number of consolidated (deleted) duplicates. -/
def consolidate_duplicate_relationships (db : DB) (entity_id : String) : DB × Nat :=
  let rels := db.relationships.filter (touches entity_id)
  let gs := groupByKey relKey rels
  gs.foldl
    (fun (st : DB × Nat) kg =>
      let r := processGroup st.1 kg.2
      (r.1, st.2 + r.2))
    (db, 0)

/-! ## Entity merge -/

structure MergeStats where
  relationships_repointed : Nat
  resolution_logs_repointed : Nat
  duplicate_rels_consolidated : Nat
deriving DecidableEq

def zeroStats : MergeStats := ⟨0, 0, 0⟩

/-- `merge_entities.merge_entity_pair`.  `now` stands for `now_iso()`. -/
def merge_entity_pair (db : DB) (survivor_id absorbed_id reason match_key : String)
    (now : String) (dry_run : Bool) : DB × MergeStats :=
  match db.canonical_entities.find? (fun e => e.canonical_id = survivor_id),
        db.canonical_entities.find? (fun e => e.canonical_id = absorbed_id) with
  | some survivor, some absorbed =>
    if dry_run then (db, zeroStats)
    else
      let survivor_name := survivor.canonical_name
      let absorbed_name := absorbed.canonical_name
      let lowerSet := (survivor.aliases.map pyLowerS) ++ [pyLowerS survivor_name]
      let st0 :=
        if !lowerSet.contains (pyLowerS absorbed_name) then
          (survivor.aliases ++ [absorbed_name], lowerSet ++ [pyLowerS absorbed_name])
        else (survivor.aliases, lowerSet)
      let finalAliases :=
        (absorbed.aliases.foldl
          (fun (p : List String × List String) a =>
            if a ≠ "" && !p.2.contains (pyLowerS a) then
              (p.1 ++ [a], p.2 ++ [pyLowerS a])
            else p)
          st0).1
      let mergedMeta := merge_metadata survivor.metadata absorbed.metadata
      let ents :=
        db.canonical_entities.map (fun e =>
          if e.canonical_id = survivor_id then
            { e with aliases := finalAliases, metadata := mergedMeta, last_updated := now }
          else e)
      let nSrc := (db.relationships.filter
        (fun r => r.source_entity_id = absorbed_id)).length
      let rels1 := db.relationships.map (fun r =>
        if r.source_entity_id = absorbed_id then { r with source_entity_id := survivor_id }
        else r)
      let nTgt := (rels1.filter (fun r => r.target_entity_id = absorbed_id)).length
      let rels2 := rels1.map (fun r =>
        if r.target_entity_id = absorbed_id then { r with target_entity_id := survivor_id }
        else r)
      let nLog := (db.entity_resolution_log.filter
        (fun l => l.canonical_id = absorbed_id)).length
      let logs1 := db.entity_resolution_log.map (fun l =>
        if l.canonical_id = absorbed_id then { l with canonical_id := survivor_id } else l)
      let db1 : DB :=
        { db with
          canonical_entities := ents
          relationships := rels2
          entity_resolution_log := logs1 }
      let consR := consolidate_duplicate_relationships db1 survivor_id
      let db2 := consR.1
      let selfRids := (db2.relationships.filter (fun r =>
        r.source_entity_id = survivor_id && r.target_entity_id = survivor_id)).map
          (fun r => r.relationship_id)
      let db3 : DB := { db2 with
        relationship_sources :=
          db2.relationship_sources.filter (fun s => !selfRids.contains s.relationship_id),
        relationships :=
          db2.relationships.filter (fun r => !selfRids.contains r.relationship_id) }
      let db4 : DB := { db3 with
        canonical_entities :=
          db3.canonical_entities.filter (fun e => e.canonical_id ≠ absorbed_id) }
      let stats : MergeStats := ⟨nSrc + nTgt, nLog, consR.2⟩
      let row : MergeRow :=
        { survivor_id := survivor_id, absorbed_id := absorbed_id,
          survivor_name := survivor_name, absorbed_name := absorbed_name,
          merge_reason := reason, match_key := match_key,
          relationships_repointed := stats.relationships_repointed,
          resolution_logs_repointed := stats.resolution_logs_repointed,
          duplicate_rels_consolidated := stats.duplicate_rels_consolidated,
          merged_at := now }
      ({ db4 with entity_merges := db4.entity_merges ++ [row] }, stats)
  | _, _ => (db, zeroStats)

/-! ## Noise disposition -/

structure DelStats where
  relationships_deleted : Nat
  sources_deleted : Nat
deriving DecidableEq

/-- `merge_entities.delete_noise_entity`. -/
def delete_noise_entity (db : DB) (canonical_id name reason : String)
    (now : String) (dry_run : Bool) : DB × DelStats :=
  if dry_run then (db, ⟨0, 0⟩)
  else
    let relIds := (db.relationships.filter (touches canonical_id)).map
      (fun r => r.relationship_id)
    let srcs1 := relIds.foldl
      (fun srcs rid => srcs.filter (fun s => s.relationship_id ≠ rid))
      db.relationship_sources
    let rels1 := relIds.foldl
      (fun rels rid => rels.filter (fun r => r.relationship_id ≠ rid))
      db.relationships
    let logs1 := db.entity_resolution_log.filter (fun l => l.canonical_id ≠ canonical_id)
    let ents1 := db.canonical_entities.filter (fun e => e.canonical_id ≠ canonical_id)
    let row : MergeRow :=
      { survivor_id := "NOISE_DELETED", absorbed_id := canonical_id,
        survivor_name := "N/A", absorbed_name := name,
        merge_reason := "noise_removal: " ++ reason, match_key := pyLowerS name,
        relationships_repointed := 0, resolution_logs_repointed := 0,
        duplicate_rels_consolidated := 0, merged_at := now }
    ({ canonical_entities := ents1, relationships := rels1,
       relationship_sources := srcs1, entity_resolution_log := logs1,
       entity_merges := db.entity_merges ++ [row] },
     ⟨relIds.length, relIds.length⟩)

/-- `merge_entities.flag_noise_entity`. -/
def flag_noise_entity (db : DB) (canonical_id _name reason : String)
    (now : String) (dry_run : Bool) : DB :=
  if dry_run then db
  else
    let meta :=
      match db.canonical_entities.find? (fun e => e.canonical_id = canonical_id) with
      | some e => e.metadata
      | none => []
    let meta1 := metaSet (metaSet meta "exclude_from_analysis" (.vBool true))
      "exclude_reason" (.vStr reason)
    { db with
      canonical_entities := db.canonical_entities.map (fun e =>
        if e.canonical_id = canonical_id then
          { e with metadata := meta1, last_updated := now }
        else e) }

/-- `load_canonical_registry`: a Python dict keyed by `canonical_id` —
key order is first insertion, value is the last row read. -/
def upsertEntity (acc : List EntityRow) (e : EntityRow) : List EntityRow :=
  if (acc.find? (fun x => x.canonical_id = e.canonical_id)).isSome then
    acc.map (fun x => if x.canonical_id = e.canonical_id then e else x)
  else acc ++ [e]

def load_registry (db : DB) : List EntityRow :=
  db.canonical_entities.foldl upsertEntity []

/-- `merge_entities.find_noise_entities`: split the noise entities into
`(deletable, flaggable)` triples `(id, name, reason)` by prominence. -/
def find_noise_entities (db : DB) :
    List (String × String × String) × List (String × String × String) :=
  (load_registry db).foldl
    (fun (p : List (String × String × String) × List (String × String × String)) e =>
      if !is_expanded_noise e.canonical_name then p
      else if pyTruthy ((metaGet e.metadata "exclude_from_analysis").getD .vNone) then p
      else
        let reason := classify_noise e.canonical_name
        if get_prominence db e.canonical_id > 50 then
          (p.1, p.2 ++ [(e.canonical_id, e.canonical_name, reason)])
        else (p.1 ++ [(e.canonical_id, e.canonical_name, reason)], p.2))
    ([], [])

/-- Phase 1 of `merge_entities.main`: delete the deletable noise entities
then flag the flaggable ones (both lists computed up front). -/
def runNoisePhase (db : DB) (now : String) (dry_run : Bool) : DB :=
  let p := find_noise_entities db
  let db1 := p.1.foldl
    (fun d t => (delete_noise_entity d t.1 t.2.1 t.2.2 now dry_run).1) db
  p.2.foldl (fun d t => flag_noise_entity d t.1 t.2.1 t.2.2 now dry_run) db1

/-! ## Duplicate detection (`find_merge_candidates`) -/

/-- One merge candidate: `(survivor_id, absorbed_id, reason, match_key)`. -/
abbrev Cand := String × String × String × String

/-- `any(name.lower().startswith(p) for p in TITLE_PREFIXES)`. -/
def startsWithTitle (name : String) : Bool :=
  TITLE_PREFIXES.any (fun pre => pyStartsWith pre.toList (pyLowerL name.toList))

/-- The Pass-1 sort key: `(-prominence, has-title, is-all-caps)`. -/
def pass1Key (db : DB) (p : String × String) : Int × Bool × Bool :=
  (-(get_prominence db p.1 : Int), startsWithTitle p.2, p.2 = pyUpperS p.2)

/-- `false < true` on booleans, as Python compares them. -/
def boolLe (a b : Bool) : Bool := !a || b

/-- Lexicographic `≤` on the Pass-1 sort key. -/
def keyLe (a b : Int × Bool × Bool) : Bool :=
  a.1 < b.1 ||
    (a.1 = b.1 &&
      ((a.2.1 = false && b.2.1 = true) ||
        (a.2.1 = b.2.1 && boolLe a.2.2 b.2.2)))

/-- The `clean_to_entities` table: cleaned form → `(cid, canonical name)`
entries, built from canonical names and aliases in registry order. -/
def cleanGroups (persons : List EntityRow) : List (String × List (String × String)) :=
  persons.foldl
    (fun gs e =>
      let cleaned := clean_name_for_matching e.canonical_name
      let gs1 :=
        if cleaned ≠ "" then dictAppend gs cleaned (e.canonical_id, e.canonical_name)
        else gs
      e.aliases.foldl
        (fun gs2 a =>
          if a ≠ "" then
            let ac := clean_name_for_matching a
            if ac ≠ "" ∧ ac ≠ cleaned then
              dictAppend gs2 ac (e.canonical_id, e.canonical_name)
            else gs2
          else gs2)
        gs1)
    []

/-- The `unique = {}` dedup of a group, keeping the first name per cid. -/
def uniqueByCid (l : List (String × String)) : List (String × String) :=
  l.foldl (fun acc p => if acc.any (fun q => q.1 = p.1) then acc else acc ++ [p]) []

/-- The reason tags attached to an absorbed entity in Pass 1. -/
def pass1Reasons (absorbed_name survivor_name : String) : String :=
  let reasons :=
    (if startsWithTitle absorbed_name then ["title_prefix"] else []) ++
    (if absorbed_name = pyUpperS absorbed_name ∧ absorbed_name.length > 3 then
      ["all_caps_variant"] else []) ++
    (if absorbed_name.toList.contains '-' ∧ survivor_name.toList.contains ' ' then
      ["hyphen_normalization"] else [])
  joinWith "; " (if reasons.isEmpty then ["cleaned_name_match"] else reasons)

/-- Pass 1 of `find_merge_candidates`: group persons by identical cleaned
form, pick the survivor by `(-prominence, title, all-caps)` and absorb the
rest, guarded by the `seen_absorbed` set. -/
def pass1 (db : DB) (persons : List EntityRow) : List Cand × List String :=
  (cleanGroups persons).foldl
    (fun (st : List Cand × List String) kg =>
      let unique := uniqueByCid kg.2
      if unique.length < 2 then st
      else
        match pySortBy (fun a b => keyLe (pass1Key db a) (pass1Key db b)) unique with
        | [] => st
        | (sid, sname) :: rest =>
          rest.foldl
            (fun (st2 : List Cand × List String) ab =>
              if ab.1 = sid || st2.2.contains ab.1 then st2
              else
                (st2.1 ++ [(sid, ab.1, pass1Reasons ab.2 sname, kg.1)],
                 st2.2 ++ [ab.1]))
            st)
    ([], [])

/-- Pass 2 of `find_merge_candidates`: last-name-only entities matched to
full-name entities sharing the surname, unambiguously or through graph
disambiguation. -/
def pass2 (db : DB) (persons : List EntityRow) (st : List Cand × List String) :
    List Cand × List String :=
  let lastToFull : List (String × List (String × String)) :=
    persons.foldl
      (fun gs e =>
        if st.2.contains e.canonical_id then gs
        else
          let ws := pySplitL (clean_name_for_matching e.canonical_name).toList
          if ws.length ≥ 2 then
            dictAppend gs (String.mk (ws.getLastD []))
              (e.canonical_id, e.canonical_name)
          else gs)
      []
  persons.foldl
    (fun (st2 : List Cand × List String) e =>
      if st2.2.contains e.canonical_id then st2
      else
        let cw := pySplitL (clean_name_for_matching e.canonical_name).toList
        if cw.length ≠ 1 then st2
        else
          let last := String.mk (cw.headD [])
          let group := ((lastToFull.find? (fun g => g.1 = last)).map
            (fun g => g.2)).getD []
          let fmatches := group.filter
            (fun f => f.1 ≠ e.canonical_id && !st2.2.contains f.1)
          let mkKey := last ++ " (from \"" ++ e.canonical_name ++ "\")"
          if fmatches.length = 0 then st2
          else if fmatches.length = 1 then
            match fmatches.headD ("", "") with
            | (fid, _) =>
              (st2.1 ++ [(fid, e.canonical_id, "lastname_only_unambiguous", mkKey)],
               st2.2 ++ [e.canonical_id])
          else
            match disambiguate_by_graph db e.canonical_id fmatches with
            | some (fid, _) =>
              (st2.1 ++
                [(fid, e.canonical_id, "lastname_only_graph_disambiguated", mkKey)],
               st2.2 ++ [e.canonical_id])
            | none => st2)
    st

/-- `merge_entities.find_merge_candidates`. -/
def find_merge_candidates (db : DB) : List Cand :=
  let persons := (load_registry db).filter (fun e => e.entity_type = "person")
  (pass2 db persons (pass1 db persons)).1

/-! ## Concrete stores used by the counterexamples and witnesses -/

/-- A relationship row with type `"t"` and the given id, endpoints, weight
and document list. -/
def mkRel (i : Nat) (s t : String) (w : ℚ) (d : List String) : RelRow :=
  { relationship_id := i, source_entity_id := s, target_entity_id := t,
    relationship_type := "t", weight := some w, source_documents := d }

/-- A person entity row. -/
def mkPerson (cid name : String) (al : List String) : EntityRow :=
  { canonical_id := cid, entity_type := "person", canonical_name := name,
    aliases := al, metadata := [], last_updated := "" }

/-- Three parallel edges between `E` and `X` (same unordered pair and type)
with weights 5, 3, 2 — the group the consolidation routine collapses. -/
def exDb1 : DB :=
  { canonical_entities := []
    relationships := [mkRel 1 "E" "X" 5 ["d1"], mkRel 2 "E" "X" 3 ["d2"],
                      mkRel 3 "E" "X" 2 ["d3"]]
    relationship_sources := [⟨1, 2⟩, ⟨2, 3⟩]
    entity_resolution_log := []
    entity_merges := [] }

/-- Entity `PER-A` shares its canonical name with `PER-B` and its alias with
`PER-C`'s canonical name; `PER-B` is the most prominent, then `PER-A`. -/
def exDb2 : DB :=
  { canonical_entities := [mkPerson "PER-A" "John Smith" ["Jane Jones"],
                           mkPerson "PER-B" "John Smith" [],
                           mkPerson "PER-C" "Jane Jones" []]
    relationships := [mkRel 1 "PER-B" "PER-X" 1 [], mkRel 2 "PER-B" "PER-Y" 1 [],
                      mkRel 3 "PER-A" "PER-X" 1 []]
    relationship_sources := []
    entity_resolution_log := []
    entity_merges := [] }

/-- Absorbed entity `S` with ten neighbors; candidate `F1` overlaps on three
of them (Jaccard `3/10`), candidate `F2` on two (Jaccard `1/5`): the best is
exactly 1.5 times the runner-up. -/
def exDb5 : DB :=
  { canonical_entities := []
    relationships :=
      [mkRel 1 "S" "N1" 1 [], mkRel 2 "S" "N2" 1 [], mkRel 3 "S" "N3" 1 [],
       mkRel 4 "S" "N4" 1 [], mkRel 5 "S" "N5" 1 [], mkRel 6 "S" "N6" 1 [],
       mkRel 7 "S" "N7" 1 [], mkRel 8 "S" "N8" 1 [], mkRel 9 "S" "N9" 1 [],
       mkRel 10 "S" "N10" 1 [],
       mkRel 11 "F1" "N1" 1 [], mkRel 12 "F1" "N2" 1 [], mkRel 13 "F1" "N3" 1 [],
       mkRel 14 "F2" "N1" 1 [], mkRel 15 "F2" "N2" 1 []]
    relationship_sources := []
    entity_resolution_log := []
    entity_merges := [] }

/-- Absorbed entity `S2` whose neighborhood coincides with candidate `G1`'s
(Jaccard 1) and half-overlaps candidate `G2`'s (Jaccard `1/2`): a clear
winner. -/
def exDb5b : DB :=
  { canonical_entities := []
    relationships := [mkRel 1 "S2" "M1" 1 [], mkRel 2 "S2" "M2" 1 [],
                      mkRel 3 "G1" "M1" 1 [], mkRel 4 "G1" "M2" 1 [],
                      mkRel 5 "G2" "M1" 1 []]
    relationship_sources := []
    entity_resolution_log := []
    entity_merges := [] }

/-- A zero-prominence noise entity with one resolution-log row. -/
def exDb6 : DB :=
  { canonical_entities := [mkPerson "PER-N" "Unknown Person" []]
    relationships := []
    relationship_sources := []
    entity_resolution_log := [⟨1, "PER-N"⟩]
    entity_merges := [] }

/-- The registry holding only `"John Kerry"`, with the default fuzzy
threshold of 90. -/
def kerryResolver : Resolver :=
  mkResolver
    [("PER-00001",
      { canonical_name := "John Kerry", aliases := [], entity_type := "person" })]
    90

/-- A resolver over an empty registry. -/
def emptyResolver : Resolver := mkResolver [] 90

/-! ## Proof-support definitions: merge-value characterization, loop
invariants, group lookup and fold steps -/

/-- The per-key value combination implemented by `mergeStep`: absorbed wins
over an absent or `null` survivor value; numeric pairs take the Python
`max`; list pairs take the ordered dedup union; boolean pairs take `or`
(subsumed by `max`, kept as in the source); anything else keeps the
survivor's value. -/
def mergeVal : Option Val → Val → Val
  | none, av => av
  | some sv, av =>
    match sv with
    | .vNone => av
    | _ =>
      if isPyNumber sv && isPyNumber av then pyMaxVal sv av
      else
        match sv, av with
        | .vList ls, .vList la => .vList (dedupConcat ls la)
        | .vBool b1, .vBool b2 => .vBool (b1 || b2)
        | _, _ => sv

/-- A candidate the `_disambiguate_by_graph` loop actually scores: nonempty
neighbor set and nonzero union. -/
def consideredCand (db : DB) (nbrs : List String) (c : String × String) : Prop :=
  ¬(get_neighbors db c.1).isEmpty = true ∧
    unionCount nbrs (get_neighbors db c.1) ≠ 0

/-- The Jaccard score the loop computes for a candidate. -/
def jacc (db : DB) (nbrs : List String) (c : String × String) : ℚ :=
  Rat.divInt (interCount nbrs (get_neighbors db c.1))
    (unionCount nbrs (get_neighbors db c.1))

/-- The loop invariant of `_disambiguate_by_graph`'s candidate scan: the
state is `(best_overlap, best_candidate, second_best)`. -/
def DisInv (db : DB) (nbrs : List String) (processed : List (String × String))
    (st : ℚ × Option (String × String) × ℚ) : Prop :=
  0 ≤ st.2.2 ∧ st.2.2 ≤ st.1 ∧
  (match st.2.1 with
   | some c => c ∈ processed ∧ consideredCand db nbrs c ∧ jacc db nbrs c = st.1 ∧
       ∀ c2 ∈ processed, consideredCand db nbrs c2 → c2 ≠ c →
         jacc db nbrs c2 ≤ st.2.2
   | none => st.1 = 0 ∧ st.2.2 = 0 ∧
       ∀ c2 ∈ processed, consideredCand db nbrs c2 → jacc db nbrs c2 ≤ 0)

/-- The `seen_absorbed` invariant of `find_merge_candidates`: the absorbed
ids of the accumulated candidates are pairwise distinct and all recorded in
the seen set. -/
def CandInv (st : List Cand × List String) : Prop :=
  (st.1.map (fun c => c.2.1)).Nodup ∧ ∀ c ∈ st.1, c.2.1 ∈ st.2

/-- The group stored under key `k`, or `[]` when the key is absent. -/
def findGroup {κ α : Type} [DecidableEq κ] (gs : List (κ × List α)) (k : κ) : List α :=
  ((gs.find? (fun kg => decide (kg.1 = k))).map Prod.snd).getD []

/-- The four columns of a relationship row that consolidation never edits:
id, endpoints and type (only `weight` and `source_documents` are updated). -/
def relSk (r : RelRow) : Nat × String × String × String :=
  (r.relationship_id, r.source_entity_id, r.target_entity_id, r.relationship_type)

/-- The step function of the group fold in
`_consolidate_duplicate_relationships`. -/
def consStep (st : DB × Nat) (kg : (String × String × String) × List RelRow) :
    DB × Nat :=
  ((processGroup st.1 kg.2).1, st.2 + (processGroup st.1 kg.2).2)

/-- The per-entity step of `find_noise_entities`. -/
def noiseStep (db : DB)
    (p : List (String × String × String) × List (String × String × String))
    (e : EntityRow) :
    List (String × String × String) × List (String × String × String) :=
  if !is_expanded_noise e.canonical_name then p
  else if pyTruthy ((metaGet e.metadata "exclude_from_analysis").getD .vNone) then p
  else
    let reason := classify_noise e.canonical_name
    if get_prominence db e.canonical_id > 50 then
      (p.1, p.2 ++ [(e.canonical_id, e.canonical_name, reason)])
    else (p.1 ++ [(e.canonical_id, e.canonical_name, reason)], p.2)

set_option maxRecDepth 400000

/-! ## Equivalence of the reducible rational helpers, and string lemmas -/

theorem rat_mul_den (q : ℚ) : q * ((q.den : ℤ) : ℚ) = ((q.num : ℤ) : ℚ) := by
  nth_rewrite 1 [← Rat.num_div_den q]
  push_cast
  rw [div_mul_cancel₀]
  exact_mod_cast q.den_nz

theorem qadd_eq (a b : ℚ) : qadd a b = a + b := by
  have hA := rat_mul_den a
  have hB := rat_mul_den b
  have h1 : ((a.den : ℚ)) * ((b.den : ℚ)) ≠ 0 :=
    mul_ne_zero (Nat.cast_ne_zero.mpr a.den_nz) (Nat.cast_ne_zero.mpr b.den_nz)
  rw [qadd, Rat.divInt_eq_div]
  push_cast at hA hB ⊢
  rw [div_eq_iff h1, ← hA, ← hB]
  ring

theorem qmul_eq (a b : ℚ) : qmul a b = a * b := by
  have hA := rat_mul_den a
  have hB := rat_mul_den b
  have h1 : ((a.den : ℚ)) * ((b.den : ℚ)) ≠ 0 :=
    mul_ne_zero (Nat.cast_ne_zero.mpr a.den_nz) (Nat.cast_ne_zero.mpr b.den_nz)
  rw [qmul, Rat.divInt_eq_div]
  push_cast at hA hB ⊢
  rw [div_eq_iff h1, ← hA, ← hB]
  ring

theorem qdiv_eq (a b : ℚ) : qdiv a b = a / b := by
  rcases eq_or_ne b 0 with hb | hb
  · subst hb; simp [qdiv]
  · have h1 : ((b.num * (a.den : ℤ) : ℤ) : ℚ) ≠ 0 := by
      have hbn : b.num ≠ 0 := Rat.num_ne_zero.mpr hb
      have han : (a.den : ℤ) ≠ 0 := by exact_mod_cast a.den_nz
      exact_mod_cast mul_ne_zero hbn han
    have hA := rat_mul_den a
    have hB := rat_mul_den b
    rw [qdiv, Rat.divInt_eq_div, div_eq_div_iff h1 hb]
    push_cast at hA hB ⊢
    linear_combination (a.num : ℚ) * hB - (b.num : ℚ) * hA

theorem length_dropWhile_le' {α : Type} (p : α → Bool) (s : List α) :
    (s.dropWhile p).length ≤ s.length := by
  induction s with
  | nil => simp
  | cons c rest ih =>
    by_cases h : p c <;> simp [List.dropWhile_cons, h] <;> omega

theorem parenMatchRest_length_lt {s r : List Char}
    (h : parenMatchRest s = some r) : r.length < s.length := by
  unfold parenMatchRest at h
  split at h
  · simp at h
  · rename_i c r1 hA
    split at h
    · split at h
      · simp at h
      · rename_i d r2 hB
        split at h
        · cases h
          have h1 := length_dropWhile_le' pyIsSpace s
          have h2 := length_dropWhile_le' (fun d => d ≠ ')') r1
          have h3 := length_dropWhile_le' pyIsSpace r2
          rw [hA] at h1; rw [hB] at h2
          simp only [List.length_cons] at h1 h2
          omega
        · simp at h
    · simp at h

/-! ## C1 — relationship consolidation -/

/-- C1: on a group of three duplicate edges with weights 5, 3 and 2, the
routine leaves exactly one edge but with weight `7 = 5 + 2`, not the group
sum `10`, and its document list has dropped the middle loser's documents:
the survivor's row is re-read stale on every loser iteration.  (Evaluation
of the code at the failing input for the `code_bug` verdict.) -/
theorem c1_consolidation_stale_weight :
    (consolidate_duplicate_relationships exDb1 "E").2 = 2 ∧
    (consolidate_duplicate_relationships exDb1 "E").1.relationships.map wval = [7] ∧
    (consolidate_duplicate_relationships exDb1 "E").1.relationships.map
      (fun r => r.source_documents) = [["d1", "d3"]] ∧
    exDb1.relationships.map wval = [5, 3, 2] ∧
    (7 : ℚ) ≠ 5 + 3 + 2 := by
  refine ⟨rfl, rfl, rfl, rfl, by norm_num⟩

/-! ## C10 — merge of a missing entity is a no-op -/

/-- C10: if the survivor or the absorbed id is not in `canonical_entities`,
`merge_entity_pair` returns all-zero statistics and leaves the store
untouched. -/
theorem c10_merge_missing_entity_noop (db : DB)
    (survivor_id absorbed_id reason match_key now : String) (dry_run : Bool)
    (h : db.canonical_entities.find? (fun e => e.canonical_id = survivor_id) = none ∨
         db.canonical_entities.find? (fun e => e.canonical_id = absorbed_id) = none) :
    merge_entity_pair db survivor_id absorbed_id reason match_key now dry_run
      = (db, zeroStats) := by
  unfold merge_entity_pair
  rcases h with h | h
  · rw [h]
  · rw [h]
    cases db.canonical_entities.find? (fun e => e.canonical_id = survivor_id) <;> rfl

/-- C10 witness: merging two ids absent from a store is a no-op there. -/
theorem c10_merge_missing_entity_noop_witness :
    merge_entity_pair exDb1 "A" "B" "r" "k" "now" false = (exDb1, zeroStats) :=
  c10_merge_missing_entity_noop exDb1 "A" "B" "r" "k" "now" false (Or.inl rfl)

/-! ## C3 — normalizer idempotence -/

/-- C3 counterexample: `normalize_name` is not idempotent.  Stripping the
parenthetical of `"Bob Jr. (Pilot)"` leaves `"Bob Jr."`, whose trailing
professional suffix only the second application removes. -/
theorem c3_normalize_not_idempotent :
    normalize_name "Bob Jr. (Pilot)" = "Bob Jr." ∧
    normalize_name (normalize_name "Bob Jr. (Pilot)") = "Bob" ∧
    normalize_name (normalize_name "Bob Jr. (Pilot)")
      ≠ normalize_name "Bob Jr. (Pilot)" := by
  refine ⟨by decide, by decide, by decide⟩

/-! ## C4 — noise rejection in the resolver -/

/-- C4 counterexample: the classifier rejects a blank name
(`is_noise_entity_name " "` is true), but `resolve` answers method
`"no_match"`, not `"noise"`, because the empty-after-trim check precedes
the noise check. -/
theorem c4_blank_name_not_noise_method :
    is_noise_entity_name " " = true ∧
    resolve emptyResolver " " = (none, "no_match", 0) ∧
    (resolve emptyResolver " ").2.1 ≠ "noise" := by
  refine ⟨by decide, by decide, by decide⟩

/-- C4 as amended: for every raw name that is nonempty after trimming and
that the noise classifier rejects, `resolve` returns no id with method
`"noise"` and confidence 0 (names blank after trimming instead return
`"no_match"`). -/
theorem c4_noise_rejected (r : Resolver) (name : String)
    (h1 : pyStripS name ≠ "")
    (h2 : is_noise_entity_name (pyStripS name) = true) :
    resolve r name = (none, "noise", 0) := by
  unfold resolve
  have hne : name ≠ "" := by
    intro h
    subst h
    exact h1 rfl
  rw [if_neg (by simp [hne, h1]), if_pos h2]

/-- C4 witness: `"Unknown Person"` is classified as noise and resolves to
`(none, "noise", 0)`. -/
theorem c4_noise_rejected_witness :
    resolve emptyResolver "Unknown Person" = (none, "noise", 0) :=
  c4_noise_rejected emptyResolver "Unknown Person" (by decide) (by decide)

/-! ## C2 — batch merge-candidate generation -/

/-- C2 counterexample: on `exDb2` the candidate list contains
`(PER-B, PER-A)` followed by `(PER-A, PER-C)`: the id `PER-A`, absorbed by
the first pair, appears as the survivor of a later pair (Pass 1 never
checks the survivor against `seen_absorbed`). -/
theorem c2_absorbed_later_survivor :
    find_merge_candidates exDb2 =
      [("PER-B", "PER-A", "cleaned_name_match", "john smith"),
       ("PER-A", "PER-C", "cleaned_name_match", "jane jones")] ∧
    ((find_merge_candidates exDb2).map (fun c => c.2.1)).headD ""
      = ((find_merge_candidates exDb2).map (fun c => c.1)).getLastD "" := by
  refine ⟨by decide, by decide⟩

/-! ## C5 — surname-only graph disambiguation -/

/-- C5 counterexample: with best Jaccard `3/10` and runner-up `1/5`, the
best score is at least `0.05` and exactly `1.5` times the runner-up, yet
`_disambiguate_by_graph` returns no candidate — the code demands a
*strictly* greater margin (`>`), the claim only `≥`. -/
theorem c5_margin_boundary_rejected :
    disambiguate_by_graph exDb5 "S" [("F1", "F One"), ("F2", "F Two")] = none ∧
    Rat.divInt (interCount (get_neighbors exDb5 "S") (get_neighbors exDb5 "F1"))
      (unionCount (get_neighbors exDb5 "S") (get_neighbors exDb5 "F1")) = mkRat 3 10 ∧
    Rat.divInt (interCount (get_neighbors exDb5 "S") (get_neighbors exDb5 "F2"))
      (unionCount (get_neighbors exDb5 "S") (get_neighbors exDb5 "F2")) = mkRat 1 5 ∧
    mkRat 1 20 ≤ mkRat 3 10 ∧
    mkRat 3 10 = qmul (mkRat 1 5) (mkRat 3 2) := by
  refine ⟨by decide, by decide, by decide, by decide, by decide⟩

/-! ## C8 — metadata merge -/

/-- C8 counterexample: the key `"note"` is present in both maps; its
survivor value is JSON `null`, which the claim files under "every other
value keeps the survivor's", yet the code adopts the absorbed value
(`merged.get(key) is None` is also true for a stored `null`). -/
theorem c8_null_survivor_overwritten :
    merge_metadata [("note", .vNone)] [("note", .vStr "x")]
      = [("note", .vStr "x")] ∧
    metaGet [("note", Val.vNone)] "note" = some .vNone ∧
    Val.vStr "x" ≠ .vNone := by
  refine ⟨rfl, rfl, by intro h; cases h⟩

/-! ## C7 — short-name fuzzy guard -/

/-- C7: whenever `resolve` answers with method `"fuzzy"` for an input whose
normalized form is at most 10 characters, the accepted similarity score was
at least 95 (the returned confidence is `score / 100 ≥ 95/100`), whatever
the configured cutoff; and concretely, `"John Perry"` against a registry
containing `"John Kerry"` (token-sort score 90 ≥ the cutoff) returns
`no_match`. -/
theorem c7_short_name_guard :
    (∀ (r : Resolver) (name cid : String) (conf : ℚ),
      resolve r name = (some cid, "fuzzy", conf) →
      (normalize_name (pyStripS name)).toList.length ≤ 10 →
      mkRat 95 100 ≤ conf) ∧
    token_sort_score "John Perry" "John Kerry" = 90 ∧
    resolve kerryResolver "John Perry" = (none, "no_match", 0) := by
  refine ⟨?_, by decide, by decide⟩
  intro r name cid conf h hlen
  have hexact : ∀ form, (exactTier r form).2.1 ≠ "fuzzy" := by
    intro form
    unfold exactTier
    split
    · dsimp only
      split <;> simp
    · simp
  have hfuzzy : ∀ normalized conf1,
      fuzzyTier r normalized = (some cid, "fuzzy", conf1) →
      normalized.toList.length ≤ 10 → mkRat 95 100 ≤ conf1 := by
    intro normalized conf1 hf hlen1
    unfold fuzzyTier at hf
    split at hf
    · simp at hf
    · rename_i fst score idx heq
      split at hf
      · simp at hf
      · rename_i hguard
        have hconf : conf1 = qdiv score 100 := by
          have := congrArg (fun p => p.2.2) hf
          simpa using this.symm
        have hscore : (95 : ℚ) ≤ score := by
          rw [Bool.and_eq_true, not_and] at hguard
          have := hguard (by exact decide_eq_true hlen1)
          simp only [decide_eq_true_eq, not_lt] at this
          exact this
        rw [hconf, qdiv_eq]
        calc mkRat 95 100 = (95 : ℚ) / 100 := by norm_num
        _ ≤ score / 100 := by
            apply div_le_div_of_nonneg_right hscore
            norm_num
  have hmatch : ∀ cleaned conf1,
      resolveMatch r cleaned = (some cid, "fuzzy", conf1) →
      (normalize_name cleaned).toList.length ≤ 10 → mkRat 95 100 ≤ conf1 := by
    intro cleaned conf1 hm hlen1
    unfold resolveMatch at hm
    rcases hfind : List.find? (fun f => (dictGetLast r.exact_lookup f).isSome)
        [pyLowerS cleaned, pyLowerS (normalize_name cleaned),
         pyLowerS (get_short_name cleaned)] with _ | form
    · simp only [hfind] at hm
      split at hm
      · simp at hm
      · split at hm
        · simp at hm
        · exact hfuzzy (normalize_name cleaned) conf1 hm hlen1
    · simp only [hfind] at hm
      exact absurd (congrArg (fun p => p.2.1) hm) (by simpa using hexact form)
  unfold resolve at h
  split at h
  · simp at h
  · dsimp only at h
    split at h
    · simp at h
    · exact hmatch (pyStripS name) conf h hlen

/-- C7 witness: `"Kerry John"` fuzzy-resolves against `"John Kerry"` with
token-sort score 100 (confidence 1), a 10-character normalized input, so
the guard conclusion `95/100 ≤ 1` is delivered by the theorem. -/
theorem c7_short_name_guard_witness : mkRat 95 100 ≤ (1 : ℚ) :=
  c7_short_name_guard.1 kerryResolver "Kerry John" "PER-00001" 1 (by decide) (by decide)

/-! ## C8 amended — field-by-field metadata merge -/

theorem metaGet_nil (k1 : String) : metaGet [] k1 = none := rfl

theorem metaGet_cons (p : String × Val) (m : List (String × Val)) (k1 : String) :
    metaGet (p :: m) k1 = if p.1 = k1 then some p.2 else metaGet m k1 := by
  by_cases h : p.1 = k1
  · simp [metaGet, List.find?_cons, h]
  · simp [metaGet, List.find?_cons, h]

theorem metaGet_map_set (m : List (String × Val)) (k k1 : String) (v : Val) :
    metaGet (m.map (fun p => if p.1 = k then (k, v) else p)) k1
      = if k1 = k then (metaGet m k).map (fun _ => v) else metaGet m k1 := by
  induction m with
  | nil => simp [metaGet]
  | cons p m ih =>
    simp only [List.map_cons]
    by_cases hk : k1 = k
    · subst hk
      rw [if_pos rfl] at ih ⊢
      by_cases hp : p.1 = k1
      · rw [if_pos hp, metaGet_cons, metaGet_cons, if_pos rfl, if_pos hp]
        rfl
      · rw [if_neg hp, metaGet_cons, metaGet_cons, if_neg hp, if_neg hp, ih]
    · rw [if_neg hk] at ih ⊢
      by_cases hp : p.1 = k
      · rw [if_pos hp]
        rw [metaGet_cons, metaGet_cons]
        have h1 : ¬((k, v).1 = k1) := fun h => hk h.symm
        have h2 : ¬(p.1 = k1) := fun h => hk (hp ▸ h).symm
        rw [if_neg h1, if_neg h2, ih]
      · rw [if_neg hp]
        rw [metaGet_cons, metaGet_cons]
        by_cases hp1 : p.1 = k1
        · rw [if_pos hp1, if_pos hp1]
        · rw [if_neg hp1, if_neg hp1, ih]

theorem metaGet_append_single (m : List (String × Val)) (k k1 : String) (v : Val) :
    metaGet (m ++ [(k, v)]) k1
      = match metaGet m k1 with
        | some w => some w
        | none => if k1 = k then some v else none := by
  induction m with
  | nil =>
    simp only [List.nil_append, metaGet_nil]
    rw [metaGet_cons]
    by_cases h : k = k1
    · rw [if_pos h, if_pos h.symm]
    · rw [if_neg h, if_neg (fun h1 => h h1.symm), metaGet_nil]
  | cons p m ih =>
    simp only [List.cons_append]
    rw [metaGet_cons, metaGet_cons]
    by_cases hp : p.1 = k1
    · rw [if_pos hp, if_pos hp]
    · rw [if_neg hp, if_neg hp, ih]

theorem metaGet_metaSet (m : List (String × Val)) (k : String) (v : Val) (k1 : String) :
    metaGet (metaSet m k v) k1 = if k1 = k then some v else metaGet m k1 := by
  unfold metaSet
  split
  · rename_i hsome
    rw [metaGet_map_set]
    by_cases hk : k1 = k
    · rw [if_pos hk, if_pos hk]
      have : (metaGet m k).isSome := by
        unfold metaGet
        cases hf : m.find? (fun p => p.1 = k) with
        | none => rw [hf] at hsome; simp at hsome
        | some q => simp
      obtain ⟨w, hw⟩ := Option.isSome_iff_exists.mp this
      rw [hw]
      rfl
    · rw [if_neg hk, if_neg hk]
  · rename_i hnone
    have hmk : metaGet m k = none := by
      unfold metaGet
      cases hf : m.find? (fun p => p.1 = k) with
      | none => rfl
      | some q => rw [hf] at hnone; simp at hnone
    rw [metaGet_append_single]
    by_cases hk : k1 = k
    · subst hk
      rw [hmk]
    · cases hg : metaGet m k1 with
      | none => simp [hk]
      | some w => simp [hk]

theorem mergeStep_get_other (m : List (String × Val)) (kv : String × Val)
    (k1 : String) (h : kv.1 ≠ k1) :
    metaGet (mergeStep m kv) k1 = metaGet m k1 := by
  have hset : ∀ v, metaGet (metaSet m kv.1 v) k1 = metaGet m k1 := by
    intro v
    rw [metaGet_metaSet, if_neg (Ne.symm h)]
  simp only [mergeStep]
  split
  · exact hset _
  · split
    · exact hset _
    · split
      · exact hset _
      · split
        · exact hset _
        · exact hset _
        · rfl

theorem mergeStep_get_self (m : List (String × Val)) (k : String) (av : Val) :
    metaGet (mergeStep m (k, av)) k = some (mergeVal (metaGet m k) av) := by
  have hset : ∀ v, metaGet (metaSet m k v) k = some v := by
    intro v
    rw [metaGet_metaSet, if_pos rfl]
  simp only [mergeStep, mergeVal]
  cases hv : metaGet m k with
  | none => simp only [hv]; exact hset av
  | some sv =>
    simp only [hv]
    cases sv <;> cases av <;>
      simp only [isPyNumber, Bool.and_self, Bool.and_true, Bool.true_and,
        Bool.and_false, Bool.false_and, if_true, if_false, hv] <;>
      first
        | exact hset _
        | exact hv

theorem merge_metadata_get (absorbed : List (String × Val)) :
    ∀ (surv : List (String × Val)) (k : String),
      (absorbed.map Prod.fst).Nodup →
      metaGet (merge_metadata surv absorbed) k =
        match metaGet absorbed k with
        | none => metaGet surv k
        | some av => some (mergeVal (metaGet surv k) av) := by
  induction absorbed with
  | nil =>
    intro surv k _
    simp [merge_metadata, metaGet_nil]
  | cons kv rest ih =>
    intro surv k hnd
    have hnd1 : (rest.map Prod.fst).Nodup := (List.nodup_cons.mp (by simpa using hnd)).2
    have hk0 : kv.1 ∉ rest.map Prod.fst := (List.nodup_cons.mp (by simpa using hnd)).1
    have hfold : merge_metadata surv (kv :: rest)
        = merge_metadata (mergeStep surv kv) rest := by
      simp [merge_metadata]
    rw [hfold, ih (mergeStep surv kv) k hnd1, metaGet_cons]
    by_cases hk : kv.1 = k
    · rw [if_pos hk]
      have hrest : metaGet rest k = none := by
        unfold metaGet
        cases hf : rest.find? (fun p => p.1 = k) with
        | none => rfl
        | some q =>
          exfalso
          have hq1 : q.1 = k := by simpa using List.find?_some hf
          have hqm : q ∈ rest := List.mem_of_find?_eq_some hf
          exact hk0 (by rw [hk, ← hq1]; exact List.mem_map_of_mem Prod.fst hqm)
      rw [hrest]
      have : mergeStep surv kv = mergeStep surv (kv.1, kv.2) := rfl
      rw [this, ← hk]
      exact mergeStep_get_self surv kv.1 kv.2
    · rw [if_neg hk, mergeStep_get_other surv kv k hk]

/-- C8 as amended: in `_merge_metadata` (with the absorbed map's keys
unique, as a Python dict guarantees), no survivor key is removed; keys
absent from the absorbed map keep the survivor's value; for a key the
survivor lacks — or stores as JSON `null` — the absorbed value is adopted;
and for a key present in both with a non-null survivor value the result is
`mergeVal`: the Python `max` when both values are numeric (which yields
logical OR on a pair of booleans), the order-preserving deduplicated union
on a pair of lists, and the survivor's value in every other case. -/
theorem c8_metadata_merge_amended (surv absorbed : List (String × Val))
    (hnd : (absorbed.map Prod.fst).Nodup) :
    (∀ k v, metaGet surv k = some v →
      (metaGet (merge_metadata surv absorbed) k).isSome) ∧
    (∀ k, metaGet absorbed k = none →
      metaGet (merge_metadata surv absorbed) k = metaGet surv k) ∧
    (∀ k av, metaGet absorbed k = some av →
      ((metaGet surv k = none ∨ metaGet surv k = some .vNone) →
        metaGet (merge_metadata surv absorbed) k = some av) ∧
      (∀ sv, metaGet surv k = some sv → sv ≠ .vNone →
        metaGet (merge_metadata surv absorbed) k = some (mergeVal (some sv) av))) ∧
    (∀ sv av, sv ≠ .vNone → (isPyNumber sv && isPyNumber av) = true →
      mergeVal (some sv) av = pyMaxVal sv av) ∧
    (∀ b1 b2, mergeVal (some (.vBool b1)) (.vBool b2) = .vBool (b1 || b2)) ∧
    (∀ ls la, mergeVal (some (.vList ls)) (.vList la) = .vList (dedupConcat ls la)) ∧
    (∀ sv av, sv ≠ .vNone → (isPyNumber sv && isPyNumber av) = false →
      (∀ ls la, ¬(sv = .vList ls ∧ av = .vList la)) →
      mergeVal (some sv) av = sv) := by
  refine ⟨?_, ?_, ?_, ?_, ?_, ?_, ?_⟩
  · intro k v hv
    rw [merge_metadata_get absorbed surv k hnd]
    cases metaGet absorbed k <;> simp [hv]
  · intro k hk
    rw [merge_metadata_get absorbed surv k hnd, hk]
  · intro k av hav
    rw [merge_metadata_get absorbed surv k hnd, hav]
    constructor
    · rintro (h | h) <;> rw [h] <;> rfl
    · intro sv hsv hne
      rw [hsv]
  · intro sv av hne hnum
    cases sv <;> cases av <;> simp_all [mergeVal, isPyNumber]
  · intro b1 b2
    cases b1 <;> cases b2 <;> simp [mergeVal, pyMaxVal, isPyNumber, numOf, pyBoolInt]
  · intro ls la
    simp [mergeVal, isPyNumber]
  · intro sv av hne hnum hnl
    cases sv <;> cases av <;> simp_all [mergeVal, isPyNumber]

/-- C8 witness: a concrete merge exercising the amended rules — a numeric
pair takes the max, a list pair the ordered dedup union, a boolean pair OR,
a string pair the survivor, a null survivor value is overwritten, and a
missing key is adopted. -/
theorem c8_metadata_merge_amended_witness :
    metaGet (merge_metadata
        [("n", .vInt 3), ("l", .vList [.vStr "A", .vStr "b"]), ("b", .vBool false),
         ("s", .vStr "keep"), ("z", .vNone)]
        [("n", .vInt 7), ("l", .vList [.vStr "a", .vStr "c"]), ("b", .vBool true),
         ("s", .vStr "drop"), ("z", .vStr "adopted"), ("new", .vInt 1)])
      "s" = some (.vStr "keep") := by
  have h := c8_metadata_merge_amended
    [("n", .vInt 3), ("l", .vList [.vStr "A", .vStr "b"]), ("b", .vBool false),
     ("s", .vStr "keep"), ("z", .vNone)]
    [("n", .vInt 7), ("l", .vList [.vStr "a", .vStr "c"]), ("b", .vBool true),
     ("s", .vStr "drop"), ("z", .vStr "adopted"), ("new", .vInt 1)]
    (by decide)
  have h2 := (h.2.2.1 "s" (.vStr "drop") rfl).2 (.vStr "keep") rfl (by intro hx; cases hx)
  rw [h2]
  rfl

/-! ## C5 amended — graph disambiguation -/

theorem jacc_nonneg (db : DB) (nbrs : List String) (c : String × String) :
    0 ≤ jacc db nbrs c := by
  unfold jacc
  apply Rat.divInt_nonneg <;> exact Int.natCast_nonneg _

theorem disInv_step (db : DB) (nbrs : List String)
    (processed : List (String × String)) (st : ℚ × Option (String × String) × ℚ)
    (c0 : String × String) (h : DisInv db nbrs processed st) :
    DisInv db nbrs (processed ++ [c0]) (disambiguateStep db nbrs st c0) := by
  obtain ⟨h0, h1, h2⟩ := h
  simp only [disambiguateStep]
  split
  · rename_i hemp
    refine ⟨h0, h1, ?_⟩
    split
    · rename_i c hc
      rw [hc] at h2
      obtain ⟨hm, hcons, hj, hall⟩ := h2
      refine ⟨List.mem_append_left _ hm, hcons, hj, ?_⟩
      intro c2 hc2 hcons2 hne
      rcases List.mem_append.mp hc2 with hc2 | hc2
      · exact hall c2 hc2 hcons2 hne
      · exfalso
        have : c2 = c0 := List.mem_singleton.mp hc2
        exact hcons2.1 (this ▸ hemp)
    · rename_i hc
      rw [hc] at h2
      obtain ⟨hb, hs, hall⟩ := h2
      refine ⟨hb, hs, ?_⟩
      intro c2 hc2 hcons2
      rcases List.mem_append.mp hc2 with hc2 | hc2
      · exact hall c2 hc2 hcons2
      · exfalso
        have : c2 = c0 := List.mem_singleton.mp hc2
        exact hcons2.1 (this ▸ hemp)
  · rename_i hemp
    split
    · rename_i huni
      refine ⟨h0, h1, ?_⟩
      split
      · rename_i c hc
        rw [hc] at h2
        obtain ⟨hm, hcons, hj, hall⟩ := h2
        refine ⟨List.mem_append_left _ hm, hcons, hj, ?_⟩
        intro c2 hc2 hcons2 hne
        rcases List.mem_append.mp hc2 with hc2 | hc2
        · exact hall c2 hc2 hcons2 hne
        · exfalso
          have he : c2 = c0 := List.mem_singleton.mp hc2
          exact hcons2.2 (he ▸ huni)
      · rename_i hc
        rw [hc] at h2
        obtain ⟨hb, hs, hall⟩ := h2
        refine ⟨hb, hs, ?_⟩
        intro c2 hc2 hcons2
        rcases List.mem_append.mp hc2 with hc2 | hc2
        · exact hall c2 hc2 hcons2
        · exfalso
          have he : c2 = c0 := List.mem_singleton.mp hc2
          exact hcons2.2 (he ▸ huni)
    · rename_i huni
      have hcons0 : consideredCand db nbrs c0 := ⟨hemp, huni⟩
      have hj0 : Rat.divInt (interCount nbrs (get_neighbors db c0.1) : ℤ)
          (unionCount nbrs (get_neighbors db c0.1) : ℤ) = jacc db nbrs c0 := rfl
      rw [hj0]
      split
      · rename_i hgt
        refine ⟨le_trans h0 h1, le_of_lt hgt, ?_⟩
        refine ⟨List.mem_append_right _ (List.mem_singleton.mpr rfl), hcons0, rfl, ?_⟩
        intro c2 hc2 hcons2 hne
        rcases List.mem_append.mp hc2 with hc2 | hc2
        · revert h2
          split
          · rename_i c hc
            intro h2
            obtain ⟨hm, hcons, hj, hall⟩ := h2
            by_cases hcc : c2 = c
            · rw [hcc, hj]
            · exact le_trans (hall c2 hc2 hcons2 hcc) h1
          · rename_i hc
            intro h2
            obtain ⟨hb, hs, hall⟩ := h2
            rw [hb]
            exact hall c2 hc2 hcons2
        · exact absurd (List.mem_singleton.mp hc2) hne
      · rename_i hng
        split
        · rename_i hgt2
          have hle : jacc db nbrs c0 ≤ st.1 := not_lt.mp hng
          refine ⟨le_of_lt (lt_of_le_of_lt h0 hgt2), hle, ?_⟩
          dsimp only
          revert h2
          split
          · rename_i c hc
            intro h2
            obtain ⟨hm, hcons, hj, hall⟩ := h2
            refine ⟨List.mem_append_left _ hm, hcons, hj, ?_⟩
            intro c2 hc2 hcons2 hne
            rcases List.mem_append.mp hc2 with hc2 | hc2
            · exact le_trans (hall c2 hc2 hcons2 hne) (le_of_lt hgt2)
            · rw [List.mem_singleton.mp hc2]
          · rename_i hc
            intro h2
            obtain ⟨hb, hs, hall⟩ := h2
            exfalso
            rw [hs] at hgt2
            rw [hb] at hng
            exact hng hgt2
        · rename_i hng2
          have hle2 : jacc db nbrs c0 ≤ st.2.2 := not_lt.mp hng2
          refine ⟨h0, h1, ?_⟩
          revert h2
          split
          · rename_i c hc
            intro h2
            obtain ⟨hm, hcons, hj, hall⟩ := h2
            refine ⟨List.mem_append_left _ hm, hcons, hj, ?_⟩
            intro c2 hc2 hcons2 hne
            rcases List.mem_append.mp hc2 with hc2 | hc2
            · exact hall c2 hc2 hcons2 hne
            · rw [List.mem_singleton.mp hc2]
              exact hle2
          · rename_i hc
            intro h2
            obtain ⟨hb, hs, hall⟩ := h2
            refine ⟨hb, hs, ?_⟩
            intro c2 hc2 hcons2
            rcases List.mem_append.mp hc2 with hc2 | hc2
            · exact hall c2 hc2 hcons2
            · rw [List.mem_singleton.mp hc2]
              rw [hs] at hle2
              exact hle2

theorem disInv_fold (db : DB) (nbrs : List String) :
    ∀ (cands : List (String × String)) (processed : List (String × String))
      (st : ℚ × Option (String × String) × ℚ),
      DisInv db nbrs processed st →
      DisInv db nbrs (processed ++ cands)
        (cands.foldl (disambiguateStep db nbrs) st) := by
  intro cands
  induction cands with
  | nil => intro processed st h; simpa using h
  | cons c0 cs ih =>
    intro processed st h
    rw [List.foldl_cons]
    have h1 := ih (processed ++ [c0]) (disambiguateStep db nbrs st c0)
      (disInv_step db nbrs processed st c0 h)
    simpa [List.append_assoc] using h1

/-- C5 as amended: whenever `_disambiguate_by_graph` accepts a candidate,
that candidate's Jaccard score is at least `0.05`, is maximal among the
candidates the loop scores, and strictly exceeds `1.5` times every *other*
scored candidate's score; at a score exactly `1.5` times the runner-up the
function instead returns none (strict margin, shown by the
counterexample). -/
theorem c5_disambiguation_amended (db : DB) (absorbed_cid : String)
    (cands : List (String × String)) (c : String × String)
    (h : disambiguate_by_graph db absorbed_cid cands = some c) :
    c ∈ cands ∧
    consideredCand db (get_neighbors db absorbed_cid) c ∧
    mkRat 1 20 ≤ jacc db (get_neighbors db absorbed_cid) c ∧
    (∀ c2 ∈ cands, consideredCand db (get_neighbors db absorbed_cid) c2 →
      jacc db (get_neighbors db absorbed_cid) c2
        ≤ jacc db (get_neighbors db absorbed_cid) c) ∧
    (∀ c2 ∈ cands, consideredCand db (get_neighbors db absorbed_cid) c2 → c2 ≠ c →
      jacc db (get_neighbors db absorbed_cid) c2 * mkRat 3 2
        < jacc db (get_neighbors db absorbed_cid) c) := by
  simp only [disambiguate_by_graph] at h
  split at h
  · simp at h
  · split at h
    · rename_i hcond
      obtain ⟨hsome, hge, hgt⟩ := hcond
      have hinv := disInv_fold db (get_neighbors db absorbed_cid) cands []
        (0, none, 0) ⟨le_refl 0, le_refl 0, rfl, rfl, by intro c2 hc2; simp at hc2⟩
      rw [List.nil_append] at hinv
      obtain ⟨h0, h1, h2⟩ := hinv
      rw [h] at h2 hsome
      obtain ⟨hm, hcons, hj, hall⟩ := h2
      have hbest := hj
      refine ⟨hm, hcons, ?_, ?_, ?_⟩
      · rw [hj]; exact hge
      · intro c2 hc2 hcons2
        by_cases hcc : c2 = c
        · rw [hcc]
        · rw [hj]
          exact le_trans (hall c2 hc2 hcons2 hcc) h1
      · intro c2 hc2 hcons2 hne
        have hle := hall c2 hc2 hcons2 hne
        have h32 : (0 : ℚ) ≤ mkRat 3 2 := by norm_num
        have step1 : jacc db (get_neighbors db absorbed_cid) c2 * mkRat 3 2
            ≤ (cands.foldl (disambiguateStep db (get_neighbors db absorbed_cid))
                (0, none, 0)).2.2 * mkRat 3 2 :=
          mul_le_mul_of_nonneg_right hle h32
        have step2 : (cands.foldl (disambiguateStep db (get_neighbors db absorbed_cid))
            (0, none, 0)).2.2 * mkRat 3 2
            < jacc db (get_neighbors db absorbed_cid) c := by
          rw [hj]
          calc _ = qmul (cands.foldl (disambiguateStep db (get_neighbors db absorbed_cid))
                (0, none, 0)).2.2 (mkRat 3 2) := (qmul_eq _ _).symm
          _ < _ := hgt
        exact lt_of_le_of_lt step1 step2
    · simp at h

/-- C5 witness: on the clear-winner store the function accepts `G1`
(Jaccard 1 against runner-up 1/2), and the theorem yields that its score
clears the 0.05 floor. -/
theorem c5_disambiguation_amended_witness :
    mkRat 1 20 ≤ jacc exDb5b (get_neighbors exDb5b "S2") ("G1", "G One") :=
  (c5_disambiguation_amended exDb5b "S2" [("G1", "G One"), ("G2", "G Two")]
    ("G1", "G One") (by decide)).2.2.1

/-! ## C2 amended — absorbed ids are pairwise distinct -/

theorem foldl_inv {σ α : Type} (step : σ → α → σ) (Inv : σ → Prop)
    (hpres : ∀ s a, Inv s → Inv (step s a)) :
    ∀ (l : List α) (s : σ), Inv s → Inv (l.foldl step s) := by
  intro l
  induction l with
  | nil => intro s h; exact h
  | cons a l ih => intro s h; exact ih (step s a) (hpres s a h)

theorem candInv_push (st : List Cand × List String) (c : Cand)
    (h : CandInv st) (hnot : c.2.1 ∉ st.2) :
    CandInv (st.1 ++ [c], st.2 ++ [c.2.1]) := by
  constructor
  · rw [List.map_append]
    refine List.Nodup.append h.1 (List.nodup_singleton _) ?_
    intro a ha hb
    simp only [List.map_cons, List.map_nil, List.mem_singleton] at hb
    subst hb
    obtain ⟨c1, hc1, hc1e⟩ := List.mem_map.mp ha
    exact hnot (hc1e ▸ h.2 c1 hc1)
  · intro c1 hc1
    rcases List.mem_append.mp hc1 with hc1 | hc1
    · exact List.mem_append_left _ (h.2 c1 hc1)
    · rw [List.mem_singleton.mp hc1]
      exact List.mem_append_right _ (List.mem_singleton.mpr rfl)

theorem pass1_inner_inv (sid sname key : String) :
    ∀ (st2 : List Cand × List String) (ab : String × String), CandInv st2 →
      CandInv (if ab.1 = sid || st2.2.contains ab.1 then st2
        else (st2.1 ++ [(sid, ab.1, pass1Reasons ab.2 sname, key)],
              st2.2 ++ [ab.1])) := by
  intro st2 ab h
  split
  · exact h
  · rename_i hg
    simp only [Bool.or_eq_true, not_or] at hg
    exact candInv_push st2 (sid, ab.1, pass1Reasons ab.2 sname, key) h
      (by simpa using hg.2)

theorem pass1_inv (db : DB) (persons : List EntityRow) :
    CandInv (pass1 db persons) := by
  unfold pass1
  refine foldl_inv _ CandInv ?_ _ ([], [])
    ⟨List.nodup_nil, by intro c hc; simp at hc⟩
  intro st kg h
  dsimp only
  split
  · exact h
  · split
    · exact h
    · rename_i sid sname rest heq
      exact foldl_inv _ CandInv (pass1_inner_inv sid sname kg.1) rest st h

theorem pass2_inv (db : DB) (persons : List EntityRow)
    (st : List Cand × List String) (h : CandInv st) :
    CandInv (pass2 db persons st) := by
  unfold pass2
  refine foldl_inv _ CandInv ?_ _ st h
  intro st2 e h2
  dsimp only
  split
  · exact h2
  · rename_i hg
    split
    · exact h2
    · split
      · exact h2
      · split
        · exact candInv_push st2 _ h2 (by simpa using hg)
        · split
          · exact candInv_push st2 _ h2 (by simpa using hg)
          · exact h2

/-- C2 as amended: in the candidate list produced by
`find_merge_candidates`, no entity id appears as the absorbed id of two
different pairs (the `seen_absorbed` set guards every absorbed append).
The unamended second half of the claim — that an absorbed id never appears
as the survivor of a later pair — is refuted by the counterexample. -/
theorem c2_absorbed_ids_distinct (db : DB) :
    ((find_merge_candidates db).map (fun c => c.2.1)).Nodup := by
  unfold find_merge_candidates
  exact (pass2_inv db _ _ (pass1_inv db _)).1

/-! ## C3 amended — conditional idempotence of the normalizer -/

theorem pySplitAux_good :
    ∀ (s acc : List Char), (∀ c ∈ acc, pyIsSpace c = false) →
      ∀ w ∈ pySplitAux s acc, w ≠ [] ∧ ∀ c ∈ w, pyIsSpace c = false := by
  intro s
  induction s with
  | nil =>
    intro acc hacc w hw
    unfold pySplitAux at hw
    split at hw
    · simp at hw
    · rename_i hne
      rw [List.mem_singleton.mp hw]
      refine ⟨by simpa using hne, ?_⟩
      intro c hc
      exact hacc c (List.mem_reverse.mp hc)
  | cons c0 rest ih =>
    intro acc hacc w hw
    unfold pySplitAux at hw
    split at hw
    · rename_i hsp
      split at hw
      · exact ih [] (by simp) w hw
      · rename_i hne
        rcases List.mem_cons.mp hw with hw | hw
        · rw [hw]
          refine ⟨by simpa using hne, ?_⟩
          intro c hc
          exact hacc c (List.mem_reverse.mp hc)
        · exact ih [] (by simp) w hw
    · rename_i hsp
      refine ih (c0 :: acc) ?_ w hw
      intro c hc
      rcases List.mem_cons.mp hc with hc | hc
      · rw [hc]; simpa using hsp
      · exact hacc c hc

theorem pySplit_good (s : List Char) :
    ∀ w ∈ pySplitL s, w ≠ [] ∧ ∀ c ∈ w, pyIsSpace c = false :=
  pySplitAux_good s [] (by simp)

theorem pySplitAux_cons_nonspace (c : Char) (hc : pyIsSpace c = false)
    (rest acc : List Char) :
    pySplitAux (c :: rest) acc = pySplitAux rest (c :: acc) := by
  rw [pySplitAux]
  rw [if_neg (by simp [hc])]

theorem pySplitAux_word (w : List Char) (hw : ∀ c ∈ w, pyIsSpace c = false) :
    ∀ (r acc : List Char), pySplitAux (w ++ r) acc = pySplitAux r (w.reverse ++ acc) := by
  induction w with
  | nil => intro r acc; simp
  | cons c w1 ih =>
    intro r acc
    have hc : pyIsSpace c = false := hw c (List.mem_cons_self c w1)
    have hw1 : ∀ c1 ∈ w1, pyIsSpace c1 = false := fun c1 hc1 => hw c1 (List.mem_cons_of_mem c hc1)
    rw [List.cons_append, pySplitAux_cons_nonspace c hc, ih hw1 r (c :: acc)]
    congr 1
    simp

theorem pySplitAux_stop (acc : List Char) (hacc : acc ≠ []) :
    pySplitAux [] acc = [acc.reverse] := by
  unfold pySplitAux
  rw [if_neg hacc]

theorem pySplitAux_space (r acc : List Char) (hacc : acc ≠ []) :
    pySplitAux (' ' :: r) acc = acc.reverse :: pySplitAux r [] := by
  rw [pySplitAux]
  rw [if_pos (by decide), if_neg hacc]

theorem pySplit_join (ps : List (List Char))
    (hps : ∀ w ∈ ps, w ≠ [] ∧ ∀ c ∈ w, pyIsSpace c = false) :
    pySplitL (joinSpaceL ps) = ps := by
  induction ps with
  | nil => rfl
  | cons w ws ih =>
    have hw := hps w (List.mem_cons_self w ws)
    have hws : ∀ w1 ∈ ws, w1 ≠ [] ∧ ∀ c ∈ w1, pyIsSpace c = false :=
      fun w1 hw1 => hps w1 (List.mem_cons_of_mem w hw1)
    cases ws with
    | nil =>
      show pySplitAux w [] = [w]
      have h1 : pySplitAux (w ++ []) [] = pySplitAux [] (w.reverse ++ []) :=
        pySplitAux_word w hw.2 [] []
      rw [List.append_nil] at h1
      rw [h1, List.append_nil, pySplitAux_stop w.reverse (by simpa using hw.1),
        List.reverse_reverse]
    | cons x xs =>
      show pySplitAux (w ++ ' ' :: joinSpaceL (x :: xs)) [] = w :: (x :: xs)
      rw [pySplitAux_word w hw.2 (' ' :: joinSpaceL (x :: xs)) [], List.append_nil,
        pySplitAux_space _ _ (by simpa using hw.1), List.reverse_reverse]
      exact congrArg (w :: ·) (ih hws)

theorem dropWhile_all_false {p : Char → Bool} :
    ∀ (l : List Char), (∀ c ∈ l, p c = false) → l.dropWhile p = l := by
  intro l h
  induction l with
  | nil => rfl
  | cons c l ih =>
    rw [List.dropWhile_cons_of_neg (by simp [h c (List.mem_cons_self c l)])]

theorem join_head_nonspace (ps : List (List Char)) (hne : ps ≠ [])
    (hps : ∀ w ∈ ps, w ≠ [] ∧ ∀ c ∈ w, pyIsSpace c = false) :
    ∃ c r, joinSpaceL ps = c :: r ∧ pyIsSpace c = false := by
  cases ps with
  | nil => exact absurd rfl hne
  | cons w ws =>
    have hw := hps w (List.mem_cons_self w ws)
    cases hwc : w with
    | nil => exact absurd hwc hw.1
    | cons c w1 =>
      have hc : pyIsSpace c = false := hw.2 c (hwc ▸ List.mem_cons_self c w1)
      cases ws with
      | nil => exact ⟨c, w1, by simp [joinSpaceL, hwc], hc⟩
      | cons x xs =>
        exact ⟨c, w1 ++ ' ' :: joinSpaceL (x :: xs), by simp [joinSpaceL, hwc], hc⟩

theorem join_reverse_head_nonspace (ps : List (List Char)) (hne : ps ≠ [])
    (hps : ∀ w ∈ ps, w ≠ [] ∧ ∀ c ∈ w, pyIsSpace c = false) :
    ∃ c r, (joinSpaceL ps).reverse = c :: r ∧ pyIsSpace c = false := by
  induction ps with
  | nil => exact absurd rfl hne
  | cons w ws ih =>
    have hw := hps w (List.mem_cons_self w ws)
    have hws : ∀ w1 ∈ ws, w1 ≠ [] ∧ ∀ c ∈ w1, pyIsSpace c = false :=
      fun w1 hw1 => hps w1 (List.mem_cons_of_mem w hw1)
    cases ws with
    | nil =>
      cases hwr : w.reverse with
      | nil => exact absurd (by simpa using hwr) hw.1
      | cons c r =>
        have hcm : c ∈ w := List.mem_reverse.mp (hwr ▸ List.mem_cons_self c r)
        exact ⟨c, r, by simpa [joinSpaceL] using hwr, hw.2 c hcm⟩
    | cons x xs =>
      obtain ⟨c, r, hcr, hc⟩ := ih (by simp) hws
      refine ⟨c, r ++ ' ' :: w.reverse, ?_, hc⟩
      show (w ++ ' ' :: joinSpaceL (x :: xs)).reverse = _
      rw [List.reverse_append, List.reverse_cons, hcr]
      simp

theorem pyStrip_join (ps : List (List Char))
    (hps : ∀ w ∈ ps, w ≠ [] ∧ ∀ c ∈ w, pyIsSpace c = false) :
    pyStripL (joinSpaceL ps) = joinSpaceL ps := by
  cases hne : ps with
  | nil => rfl
  | cons w ws =>
    rw [← hne]
    have hne1 : ps ≠ [] := by rw [hne]; simp
    obtain ⟨c, r, hcr, hc⟩ := join_head_nonspace ps hne1 hps
    obtain ⟨c2, r2, hcr2, hc2⟩ := join_reverse_head_nonspace ps hne1 hps
    unfold pyStripL
    rw [hcr, List.dropWhile_cons_of_neg (by simp [hc]), ← hcr, hcr2,
      List.dropWhile_cons_of_neg (by simp [hc2]), ← hcr2, List.reverse_reverse]

theorem stripSuffixes_fold_eq_self (sufs : List (List Char)) (s : List Char)
    (h : ∀ suf ∈ sufs, pyEndsWith suf s = false) :
    sufs.foldl
      (fun s suf =>
        if pyEndsWith suf s then pyStripL (s.take (s.length - suf.length)) else s)
      s = s := by
  induction sufs with
  | nil => rfl
  | cons suf sufs ih =>
    rw [List.foldl_cons, if_neg (by simp [h suf (List.mem_cons_self suf sufs)])]
    exact ih fun suf1 hs1 => h suf1 (List.mem_cons_of_mem suf hs1)

theorem commaRewrite_eq_self (s : List Char) (h : ',' ∉ s) : commaRewrite s = s := by
  unfold commaRewrite
  rw [if_neg h]

theorem parenMatchRest_none (s : List Char) (h : '(' ∉ s) : parenMatchRest s = none := by
  unfold parenMatchRest
  cases hd : s.dropWhile pyIsSpace with
  | nil => rfl
  | cons c r =>
    have hcm : c ∈ s := (List.dropWhile_sublist pyIsSpace).subset
      (hd ▸ List.mem_cons_self c r)
    have hcc : ¬ c = '(' := fun hcc => h (hcc ▸ hcm)
    show (if c = '(' then _ else none) = none
    rw [if_neg hcc]

theorem parenSubGo_eq_self (fuel : Nat) :
    ∀ s : List Char, '(' ∉ s → parenSubGo fuel s = s := by
  induction fuel with
  | zero => intro s _; rfl
  | succ fuel ih =>
    intro s h
    unfold parenSubGo
    rw [parenMatchRest_none s h]
    cases s with
    | nil => rfl
    | cons c rest =>
      exact congrArg (c :: ·) (ih rest fun hm => h (List.mem_cons_of_mem c hm))

theorem normalizeL_shape (s : List Char) :
    ∃ ps, normalizeL s = joinSpaceL ps ∧
      ∀ w ∈ ps, w ≠ [] ∧ ∀ c ∈ w, pyIsSpace c = false := by
  unfold normalizeL
  split
  · exact ⟨[], rfl, by simp⟩
  · exact ⟨pySplitL (parenSub (commaRewrite (stripNameSuffixes (pyStripL s)))), rfl,
      pySplit_good _⟩

theorem normalizeL_idem (s : List Char)
    (h1 : ',' ∉ normalizeL s) (h2 : '(' ∉ normalizeL s)
    (h3 : ∀ suf ∈ NAME_SUFFIXES, pyEndsWith suf (normalizeL s) = false) :
    normalizeL (normalizeL s) = normalizeL s := by
  obtain ⟨ps, hps, hgood⟩ := normalizeL_shape s
  by_cases hn : normalizeL s = []
  · rw [hn]; rfl
  · conv_lhs => rw [normalizeL]
    rw [if_neg hn]
    show joinSpaceL (pySplitL (parenSub (commaRewrite
      (stripNameSuffixes (pyStripL (normalizeL s)))))) = normalizeL s
    rw [show pyStripL (normalizeL s) = normalizeL s from hps ▸ pyStrip_join ps hgood]
    rw [show stripNameSuffixes (normalizeL s) = normalizeL s from
      stripSuffixes_fold_eq_self NAME_SUFFIXES (normalizeL s) h3]
    rw [commaRewrite_eq_self (normalizeL s) h1]
    rw [show parenSub (normalizeL s) = normalizeL s from
      parenSubGo_eq_self (normalizeL s).length (normalizeL s) h2]
    rw [hps, pySplit_join ps hgood]

/-- C3 as amended: `normalize_name` is idempotent on every input whose
normalized form contains no comma, no opening parenthesis, and does not end
in one of the strippable professional suffixes (the counterexample shows a
second application can strip further otherwise). -/
theorem c3_normalize_idempotent_amended (x : String)
    (h1 : ',' ∉ (normalize_name x).toList)
    (h2 : '(' ∉ (normalize_name x).toList)
    (h3 : ∀ suf ∈ NAME_SUFFIXES, pyEndsWith suf (normalize_name x).toList = false) :
    normalize_name (normalize_name x) = normalize_name x := by
  unfold normalize_name at h1 h2 h3 ⊢
  exact congrArg String.mk (normalizeL_idem x.toList h1 h2 h3)

/-- C3 witness: `"Epstein, Jeffrey E."` normalizes to
`"Jeffrey E. Epstein"`, which satisfies the amended side conditions, so a
second normalization is the identity there. -/
theorem c3_normalize_idempotent_amended_witness :
    normalize_name (normalize_name "Epstein, Jeffrey E.")
      = normalize_name "Epstein, Jeffrey E." :=
  c3_normalize_idempotent_amended "Epstein, Jeffrey E." (by decide) (by decide)
    (by decide)

/-! ## C9 — idempotence of relationship consolidation -/

theorem consolidate_eq (db : DB) (eid : String) :
    consolidate_duplicate_relationships db eid
      = (groupByKey relKey (db.relationships.filter (touches eid))).foldl
          consStep (db, 0) := rfl

theorem findGroup_cons {κ α : Type} [DecidableEq κ] (k2 : κ) (g : List α)
    (rest : List (κ × List α)) (k1 : κ) :
    findGroup ((k2, g) :: rest) k1 = if k2 = k1 then g else findGroup rest k1 := by
  by_cases h : k2 = k1
  · simp [findGroup, h]
  · simp [findGroup, h]

theorem findGroup_dictAppend {κ α : Type} [DecidableEq κ]
    (gs : List (κ × List α)) (k : κ) (a : α) (k1 : κ) :
    findGroup (dictAppend gs k a) k1 =
      if k1 = k then findGroup gs k1 ++ [a] else findGroup gs k1 := by
  induction gs with
  | nil =>
    show findGroup [(k, [a])] k1 = _
    rw [findGroup_cons]
    by_cases h : k1 = k
    · rw [if_pos h.symm, if_pos h]
      rfl
    · rw [if_neg (fun hh => h hh.symm), if_neg h]
  | cons e rest ih =>
    obtain ⟨k2, g⟩ := e
    show findGroup (if k2 = k then (k2, g ++ [a]) :: rest
      else (k2, g) :: dictAppend rest k a) k1 = _
    by_cases h2 : k2 = k
    · rw [if_pos h2]
      simp only [findGroup_cons]
      by_cases h1 : k2 = k1
      · rw [if_pos h1, if_pos h1, if_pos (h1.symm.trans h2)]
      · have hk1 : ¬ k1 = k := fun hh => h1 (h2.trans hh.symm)
        rw [if_neg h1, if_neg h1, if_neg hk1]
    · rw [if_neg h2]
      simp only [findGroup_cons]
      by_cases h1 : k2 = k1
      · have hk1 : ¬ k1 = k := fun hh => h2 (h1.trans hh)
        rw [if_pos h1, if_pos h1, if_neg hk1]
      · rw [if_neg h1, if_neg h1, ih]

theorem findGroup_foldl {κ α : Type} [DecidableEq κ] (key : α → κ) :
    ∀ (l : List α) (gs : List (κ × List α)) (k : κ),
      findGroup (l.foldl (fun gs a => dictAppend gs (key a) a) gs) k
        = findGroup gs k ++ l.filter (fun a => decide (key a = k)) := by
  intro l
  induction l with
  | nil => intro gs k; simp
  | cons a l ih =>
    intro gs k
    rw [List.foldl_cons, ih, findGroup_dictAppend]
    by_cases h : k = key a
    · rw [if_pos h, List.filter_cons, if_pos (by simp [h])]
      simp
    · have hh : ¬ key a = k := fun hh => h hh.symm
      rw [if_neg h, List.filter_cons, if_neg (by simpa using hh)]

theorem findGroup_groupByKey {κ α : Type} [DecidableEq κ] (key : α → κ)
    (l : List α) (k : κ) :
    findGroup (groupByKey key l) k = l.filter (fun a => decide (key a = k)) := by
  rw [groupByKey, findGroup_foldl]
  simp [findGroup]

theorem mem_of_findGroup_ne_nil {κ α : Type} [DecidableEq κ]
    (gs : List (κ × List α)) (k : κ) (h : findGroup gs k ≠ []) :
    (k, findGroup gs k) ∈ gs := by
  unfold findGroup at h ⊢
  cases hf : gs.find? (fun kg => decide (kg.1 = k)) with
  | none => rw [hf] at h; simp at h
  | some e =>
    have he : e ∈ gs := List.mem_of_find?_eq_some hf
    have hk : e.1 = k := by
      have hp := List.find?_some hf
      simpa using hp
    have h2 : ((Option.map Prod.snd (some e)).getD []) = e.2 := rfl
    rw [h2, ← hk]
    exact he

theorem mem_dictAppend_keys {κ α : Type} [DecidableEq κ]
    (gs : List (κ × List α)) (k : κ) (a : α) (x : κ) :
    x ∈ (dictAppend gs k a).map Prod.fst ↔ x ∈ gs.map Prod.fst ∨ x = k := by
  induction gs with
  | nil => simp [dictAppend]
  | cons e rest ih =>
    obtain ⟨k2, g⟩ := e
    show x ∈ (if k2 = k then (k2, g ++ [a]) :: rest
      else (k2, g) :: dictAppend rest k a).map Prod.fst ↔ _
    by_cases h : k2 = k
    · rw [if_pos h]
      subst h
      simp only [List.map_cons]
      constructor
      · exact Or.inl
      · rintro (hx | hx)
        · exact hx
        · rw [hx]; exact List.mem_cons_self _ _
    · rw [if_neg h]
      simp only [List.map_cons]
      rw [List.mem_cons, List.mem_cons, ih]
      exact (or_assoc).symm

theorem dictAppend_keys_nodup {κ α : Type} [DecidableEq κ]
    (gs : List (κ × List α)) (k : κ) (a : α) (h : (gs.map Prod.fst).Nodup) :
    ((dictAppend gs k a).map Prod.fst).Nodup := by
  induction gs with
  | nil => simp [dictAppend]
  | cons e rest ih =>
    obtain ⟨k2, g⟩ := e
    simp only [List.map_cons, List.nodup_cons] at h
    show ((if k2 = k then (k2, g ++ [a]) :: rest
      else (k2, g) :: dictAppend rest k a).map Prod.fst).Nodup
    by_cases hk : k2 = k
    · rw [if_pos hk]
      simp only [List.map_cons, List.nodup_cons]
      exact h
    · rw [if_neg hk]
      simp only [List.map_cons, List.nodup_cons]
      refine ⟨?_, ih h.2⟩
      intro hx
      rcases (mem_dictAppend_keys rest k a k2).mp hx with hx | hx
      · exact h.1 hx
      · exact hk hx

theorem groupByKey_keys_nodup {κ α : Type} [DecidableEq κ] (key : α → κ)
    (l : List α) : ((groupByKey key l).map Prod.fst).Nodup := by
  rw [groupByKey]
  suffices h : ∀ (l1 : List α) (gs : List (κ × List α)), (gs.map Prod.fst).Nodup →
      ((l1.foldl (fun gs a => dictAppend gs (key a) a) gs).map Prod.fst).Nodup from
    h l [] (by simp)
  intro l1
  induction l1 with
  | nil => intro gs h; exact h
  | cons a l1 ih => intro gs h; exact ih _ (dictAppend_keys_nodup gs (key a) a h)

theorem find_key_of_mem {κ α : Type} [DecidableEq κ] :
    ∀ (gs : List (κ × List α)), (gs.map Prod.fst).Nodup → ∀ kg ∈ gs,
      gs.find? (fun e => decide (e.1 = kg.1)) = some kg := by
  intro gs
  induction gs with
  | nil => intro _ kg h; simp at h
  | cons e rest ih =>
    intro hn kg hkg
    simp only [List.map_cons, List.nodup_cons] at hn
    rcases List.mem_cons.mp hkg with h | h
    · subst h
      simp
    · have hne : ¬ e.1 = kg.1 := by
        intro hh
        exact hn.1 (by rw [hh]; exact List.mem_map.mpr ⟨kg, h, rfl⟩)
      rw [List.find?_cons_of_neg _ (by simpa using hne)]
      exact ih hn.2 kg h

theorem mem_groupByKey_eq_filter {κ α : Type} [DecidableEq κ] (key : α → κ)
    (l : List α) (kg : κ × List α) (h : kg ∈ groupByKey key l) :
    kg.2 = l.filter (fun a => decide (key a = kg.1)) := by
  have hf := find_key_of_mem (groupByKey key l) (groupByKey_keys_nodup key l) kg h
  have h2 : findGroup (groupByKey key l) kg.1 = kg.2 := by
    rw [findGroup, hf]
    rfl
  rw [← h2, findGroup_groupByKey]

theorem nodup_map_inj {α β : Type} {f : α → β} :
    ∀ {l : List α}, (l.map f).Nodup → ∀ a ∈ l, ∀ b ∈ l, f a = f b → a = b := by
  intro l
  induction l with
  | nil => intro _ a ha; simp at ha
  | cons c t ih =>
    intro hnd a ha b hb hf
    simp only [List.map_cons, List.nodup_cons] at hnd
    rcases List.mem_cons.mp ha with ha1 | ha1
    · rcases List.mem_cons.mp hb with hb1 | hb1
      · rw [ha1, hb1]
      · exfalso
        subst ha1
        exact hnd.1 (by rw [hf]; exact List.mem_map.mpr ⟨b, hb1, rfl⟩)
    · rcases List.mem_cons.mp hb with hb1 | hb1
      · exfalso
        subst hb1
        exact hnd.1 (by rw [← hf]; exact List.mem_map.mpr ⟨a, ha1, rfl⟩)
      · exact ih hnd.2 a ha1 b hb1 hf

theorem length_lt_two_of_all_eq {α : Type} :
    ∀ (l : List α), l.Nodup → (∀ a ∈ l, ∀ b ∈ l, a = b) → l.length < 2 := by
  intro l hnd hall
  match l with
  | [] => simp
  | [a] => simp
  | a :: b :: t =>
    exfalso
    have hab : a = b := hall a (by simp) b (by simp)
    rw [List.nodup_cons] at hnd
    exact hnd.1 (by rw [hab]; exact List.mem_cons_self b t)

theorem relSk_update (rels : List RelRow) (rid : Nat) (w : ℚ) (docs : List String) :
    (updateRelRow rels rid w docs).map relSk = rels.map relSk := by
  rw [updateRelRow, List.map_map]
  refine List.map_congr_left ?_
  intro r _
  show relSk (if r.relationship_id = rid
    then { r with weight := some w, source_documents := docs } else r) = relSk r
  split <;> rfl

theorem relSk_delete (rels : List RelRow) (rid : Nat) :
    List.Sublist ((deleteRelRow rels rid).map relSk) (rels.map relSk) :=
  (List.filter_sublist rels).map relSk

theorem relSk_absorb (surv : RelRow) (db : DB) (l : RelRow) :
    List.Sublist (((absorbLoser surv db l).relationships).map relSk)
      (db.relationships.map relSk) := by
  have h1 := relSk_delete (updateRelRow db.relationships surv.relationship_id
    (qadd (wval surv) (wval l))
    ((pyDedupStr (surv.source_documents ++ l.source_documents)).take 200))
    l.relationship_id
  rw [relSk_update] at h1
  exact h1

theorem relSk_absorbFold (surv : RelRow) :
    ∀ (losers : List RelRow) (db : DB),
      List.Sublist (((losers.foldl (absorbLoser surv) db).relationships).map relSk)
        (db.relationships.map relSk) := by
  intro losers
  induction losers with
  | nil => intro db; exact List.Sublist.refl _
  | cons l ls ih =>
    intro db
    exact (ih (absorbLoser surv db l)).trans (relSk_absorb surv db l)

theorem relSk_processGroup (db : DB) (g : List RelRow) :
    List.Sublist (((processGroup db g).1.relationships).map relSk)
      (db.relationships.map relSk) := by
  rw [processGroup]
  split
  · exact List.Sublist.refl _
  · split
    · exact List.Sublist.refl _
    · exact relSk_absorbFold _ _ db

theorem relSk_consFold :
    ∀ (gs : List ((String × String × String) × List RelRow)) (st : DB × Nat),
      List.Sublist (((gs.foldl consStep st).1.relationships).map relSk)
        (st.1.relationships.map relSk) := by
  intro gs
  induction gs with
  | nil => intro st; exact List.Sublist.refl _
  | cons kg gs ih =>
    intro st
    exact (ih (consStep st kg)).trans (relSk_processGroup st.1 kg.2)

theorem rid_notMem_of_sublist {l1 l2 : List RelRow}
    (hs : List.Sublist (l1.map relSk) (l2.map relSk)) (x : Nat)
    (hx : x ∉ l2.map (fun r => r.relationship_id)) :
    x ∉ l1.map (fun r => r.relationship_id) := by
  intro hmem
  apply hx
  have h1 : l1.map (fun r => r.relationship_id) = (l1.map relSk).map Prod.fst := by
    rw [List.map_map]; rfl
  have h2 : l2.map (fun r => r.relationship_id) = (l2.map relSk).map Prod.fst := by
    rw [List.map_map]; rfl
  rw [h2]
  rw [h1] at hmem
  exact (hs.map Prod.fst).subset hmem

theorem rid_notMem_delete (rels : List RelRow) (rid : Nat) :
    rid ∉ (deleteRelRow rels rid).map (fun r => r.relationship_id) := by
  intro h
  rcases List.mem_map.mp h with ⟨r, hr, hrid⟩
  rcases List.mem_filter.mp hr with ⟨_, hne⟩
  have hne2 : r.relationship_id ≠ rid := by simpa using hne
  exact hne2 hrid

theorem rid_notMem_absorb (surv : RelRow) (db : DB) (l : RelRow) :
    l.relationship_id
      ∉ ((absorbLoser surv db l).relationships).map (fun r => r.relationship_id) :=
  rid_notMem_delete _ _

theorem rid_notMem_absorbFold (surv : RelRow) :
    ∀ (losers : List RelRow) (db : DB), ∀ x ∈ losers,
      x.relationship_id ∉
        ((losers.foldl (absorbLoser surv) db).relationships).map
          (fun r => r.relationship_id) := by
  intro losers
  induction losers with
  | nil => intro db x hx; simp at hx
  | cons l ls ih =>
    intro db x hx
    rcases List.mem_cons.mp hx with hx | hx
    · subst hx
      exact rid_notMem_of_sublist (relSk_absorbFold surv ls (absorbLoser surv db x))
        _ (rid_notMem_absorb surv db x)
    · exact ih (absorbLoser surv db l) x hx

theorem insertSorted_perm {α : Type} (le : α → α → Bool) (a : α) :
    ∀ (l : List α), (insertSorted le a l).Perm (a :: l) := by
  intro l
  induction l with
  | nil => exact List.Perm.refl _
  | cons b bs ih =>
    rw [insertSorted]
    split
    · exact (List.Perm.cons b ih).trans (List.Perm.swap a b bs)
    · exact List.Perm.refl _

theorem pySortBy_perm {α : Type} (le : α → α → Bool) (l : List α) :
    (pySortBy le l).Perm l := by
  rw [pySortBy]
  suffices h : ∀ (l1 acc : List α),
      (l1.foldl (fun acc a => insertSorted le a acc) acc).Perm (l1 ++ acc) by
    simpa using h l []
  intro l1
  induction l1 with
  | nil => intro acc; simpa using List.Perm.refl acc
  | cons a l1 ih =>
    intro acc
    rw [List.foldl_cons]
    refine (ih (insertSorted le a acc)).trans ?_
    exact (List.Perm.append_left l1 (insertSorted_perm le a acc)).trans
      List.perm_middle

theorem rid_notMem_processGroup (db : DB) (g : List RelRow) (x : RelRow)
    (hx : x ∈ (pySortBy (fun a b => decide (wval b ≤ wval a)) g).drop 1) :
    x.relationship_id
      ∉ ((processGroup db g).1.relationships).map (fun r => r.relationship_id) := by
  rw [processGroup]
  split
  · rename_i hlen
    exfalso
    have hp : (pySortBy (fun a b => decide (wval b ≤ wval a)) g).length = g.length :=
      (pySortBy_perm _ g).length_eq
    have hd : (pySortBy (fun a b => decide (wval b ≤ wval a)) g).drop 1 = [] := by
      apply List.drop_eq_nil_of_le
      omega
    rw [hd] at hx
    simp at hx
  · split
    · rename_i hs
      exfalso
      rw [hs] at hx
      simp at hx
    · rename_i surv losers hs
      rw [hs] at hx
      exact rid_notMem_absorbFold surv losers db x (by simpa using hx)

theorem fold_deletes :
    ∀ (gs : List ((String × String × String) × List RelRow)) (st : DB × Nat),
      ∀ kg ∈ gs, ∀ x : RelRow,
      x ∈ (pySortBy (fun a b => decide (wval b ≤ wval a)) kg.2).drop 1 →
      x.relationship_id
        ∉ ((gs.foldl consStep st).1.relationships).map (fun r => r.relationship_id) := by
  intro gs
  induction gs with
  | nil => intro st kg hkg; simp at hkg
  | cons g1 rest ih =>
    intro st kg hkg x hx
    rcases List.mem_cons.mp hkg with h | h
    · subst h
      exact rid_notMem_of_sublist (relSk_consFold rest (consStep st kg))
        x.relationship_id (rid_notMem_processGroup st.1 kg.2 x hx)
    · exact ih (consStep st g1) kg h x hx

theorem rid_nodup_consolidate (db : DB) (eid : String)
    (h : (db.relationships.map (fun r => r.relationship_id)).Nodup) :
    (((consolidate_duplicate_relationships db eid).1.relationships).map
      (fun r => r.relationship_id)).Nodup := by
  rw [consolidate_eq]
  have hs := relSk_consFold
    (groupByKey relKey (db.relationships.filter (touches eid))) (db, (0 : Nat))
  have h1 := hs.map Prod.fst
  rw [List.map_map, List.map_map] at h1
  exact List.Nodup.sublist h1 h

theorem exists_orig_of_sk_sublist {l1 l2 : List RelRow}
    (hs : List.Sublist (l1.map relSk) (l2.map relSk)) {r : RelRow} (hr : r ∈ l1) :
    ∃ r0 ∈ l2, relSk r0 = relSk r := by
  have h1 : relSk r ∈ l2.map relSk := hs.subset (List.mem_map.mpr ⟨r, hr, rfl⟩)
  rcases List.mem_map.mp h1 with ⟨r0, hr0, he⟩
  exact ⟨r0, hr0, he⟩

theorem relSk_inj_fields {a b : RelRow} (h : relSk a = relSk b) :
    a.relationship_id = b.relationship_id ∧ a.source_entity_id = b.source_entity_id
      ∧ a.target_entity_id = b.target_entity_id
      ∧ a.relationship_type = b.relationship_type := by
  rw [relSk, relSk] at h
  simpa using h

theorem consolidate_post_distinct (db : DB) (eid : String)
    (hnd : (db.relationships.map (fun r => r.relationship_id)).Nodup) :
    ∀ r1 ∈ (consolidate_duplicate_relationships db eid).1.relationships,
    ∀ s1 ∈ (consolidate_duplicate_relationships db eid).1.relationships,
      touches eid r1 = true → touches eid s1 = true → relKey r1 = relKey s1 →
      r1 = s1 := by
  intro r1 hr1 s1 hs1 ht1 ht2 hk
  have hnd1 := rid_nodup_consolidate db eid hnd
  by_cases hrid : r1.relationship_id = s1.relationship_id
  · exact nodup_map_inj hnd1 r1 hr1 s1 hs1 hrid
  · exfalso
    rw [consolidate_eq] at hr1 hs1
    have hsub : List.Sublist
        ((((groupByKey relKey (db.relationships.filter (touches eid))).foldl
          consStep (db, 0)).1.relationships).map relSk)
        (db.relationships.map relSk) :=
      relSk_consFold _ (db, 0)
    obtain ⟨r0, hr0, hskr⟩ := exists_orig_of_sk_sublist hsub hr1
    obtain ⟨s0, hs0, hsks⟩ := exists_orig_of_sk_sublist hsub hs1
    obtain ⟨hridr, hsrcr, htgtr, htypr⟩ := relSk_inj_fields hskr
    obtain ⟨hrids, hsrcs, htgts, htyps⟩ := relSk_inj_fields hsks
    have hkey_r : relKey r0 = relKey r1 := by
      unfold relKey sortedPair
      rw [hsrcr, htgtr, htypr]
    have hkey_s : relKey s0 = relKey s1 := by
      unfold relKey sortedPair
      rw [hsrcs, htgts, htyps]
    have htouch_r : touches eid r0 = true := by
      unfold touches at ht1 ⊢
      rw [hsrcr, htgtr]
      exact ht1
    have htouch_s : touches eid s0 = true := by
      unfold touches at ht2 ⊢
      rw [hsrcs, htgts]
      exact ht2
    have hr0f : r0 ∈ db.relationships.filter (touches eid) :=
      List.mem_filter.mpr ⟨hr0, htouch_r⟩
    have hs0f : s0 ∈ db.relationships.filter (touches eid) :=
      List.mem_filter.mpr ⟨hs0, htouch_s⟩
    have hr0g : r0 ∈ (db.relationships.filter (touches eid)).filter
        (fun a => decide (relKey a = relKey r1)) :=
      List.mem_filter.mpr ⟨hr0f, by simp [hkey_r]⟩
    have hs0g : s0 ∈ (db.relationships.filter (touches eid)).filter
        (fun a => decide (relKey a = relKey r1)) :=
      List.mem_filter.mpr ⟨hs0f, by simp [hkey_s, hk]⟩
    have hfg := findGroup_groupByKey relKey (db.relationships.filter (touches eid))
      (relKey r1)
    rw [← hfg] at hr0g hs0g
    have hgne : findGroup (groupByKey relKey (db.relationships.filter (touches eid)))
        (relKey r1) ≠ [] := by
      intro hh
      rw [hh] at hr0g
      simp at hr0g
    have hmemgs := mem_of_findGroup_ne_nil
      (groupByKey relKey (db.relationships.filter (touches eid))) (relKey r1) hgne
    have hperm := pySortBy_perm (fun a b => decide (wval b ≤ wval a))
      (findGroup (groupByKey relKey (db.relationships.filter (touches eid)))
        (relKey r1))
    have hr0s := hperm.mem_iff.mpr hr0g
    have hs0s := hperm.mem_iff.mpr hs0g
    have hr0ns0 : r0 ≠ s0 := by
      intro hh
      apply hrid
      rw [← hridr, hh, hrids]
    cases hsorted : pySortBy (fun a b => decide (wval b ≤ wval a))
        (findGroup (groupByKey relKey (db.relationships.filter (touches eid)))
          (relKey r1)) with
    | nil =>
      rw [hsorted] at hr0s
      simp at hr0s
    | cons surv losers =>
      rw [hsorted] at hr0s hs0s
      have htail : r0 ∈ losers ∨ s0 ∈ losers := by
        rcases List.mem_cons.mp hr0s with h1 | h1
        · rcases List.mem_cons.mp hs0s with hq | hq
          · exact absurd (h1.trans hq.symm) hr0ns0
          · exact Or.inr hq
        · exact Or.inl h1
      rcases htail with h1 | h1
      · have habs := fold_deletes
          (groupByKey relKey (db.relationships.filter (touches eid))) (db, 0)
          (relKey r1,
            findGroup (groupByKey relKey (db.relationships.filter (touches eid)))
              (relKey r1)) hmemgs r0
          (by rw [hsorted]; simpa using h1)
        apply habs
        rw [hridr]
        exact List.mem_map.mpr ⟨r1, hr1, rfl⟩
      · have habs := fold_deletes
          (groupByKey relKey (db.relationships.filter (touches eid))) (db, 0)
          (relKey r1,
            findGroup (groupByKey relKey (db.relationships.filter (touches eid)))
              (relKey r1)) hmemgs s0
          (by rw [hsorted]; simpa using h1)
        apply habs
        rw [hrids]
        exact List.mem_map.mpr ⟨s1, hs1, rfl⟩

theorem consFold_id :
    ∀ (gs : List ((String × String × String) × List RelRow)) (db : DB),
      (∀ kg ∈ gs, kg.2.length < 2) →
      gs.foldl consStep (db, 0) = (db, 0) := by
  intro gs
  induction gs with
  | nil => intro db _; rfl
  | cons kg rest ih =>
    intro db h
    have h1 : consStep (db, 0) kg = (db, 0) := by
      show ((processGroup db kg.2).1, 0 + (processGroup db kg.2).2) = (db, 0)
      rw [processGroup, if_pos (h kg (List.mem_cons_self _ _))]
      rfl
    calc (kg :: rest).foldl consStep (db, 0)
        = rest.foldl consStep (consStep (db, 0) kg) := rfl
      _ = rest.foldl consStep (db, 0) := by rw [h1]
      _ = (db, 0) := ih db (fun kg2 h2 => h kg2 (List.mem_cons_of_mem _ h2))

/-- C9: relationship consolidation is idempotent.  If relationship ids are
unique (the table's primary key), then running
`_consolidate_duplicate_relationships` a second time for the same entity,
immediately after a first run with no intervening changes, leaves every
table unchanged and reports zero consolidations. -/
theorem c9_consolidation_idempotent (db : DB) (eid : String)
    (hnd : (db.relationships.map (fun r => r.relationship_id)).Nodup) :
    consolidate_duplicate_relationships
      (consolidate_duplicate_relationships db eid).1 eid
      = ((consolidate_duplicate_relationships db eid).1, 0) := by
  have hdist := consolidate_post_distinct db eid hnd
  rw [consolidate_eq ((consolidate_duplicate_relationships db eid).1) eid]
  apply consFold_id
  intro kg hkg
  have hkg2 := mem_groupByKey_eq_filter relKey
    ((consolidate_duplicate_relationships db eid).1.relationships.filter
      (touches eid)) kg hkg
  have hnd1 : (consolidate_duplicate_relationships db eid).1.relationships.Nodup :=
    List.Nodup.of_map _ (rid_nodup_consolidate db eid hnd)
  have hndg : kg.2.Nodup := by
    rw [hkg2]
    exact (hnd1.filter _).filter _
  apply length_lt_two_of_all_eq kg.2 hndg
  intro a ha b hb
  rw [hkg2] at ha hb
  rcases List.mem_filter.mp ha with ⟨ha1, ha2⟩
  rcases List.mem_filter.mp hb with ⟨hb1, hb2⟩
  rcases List.mem_filter.mp ha1 with ⟨ha0, hat⟩
  rcases List.mem_filter.mp hb1 with ⟨hb0, hbt⟩
  refine hdist a ha0 b hb0 hat hbt ?_
  have h1 : relKey a = kg.1 := of_decide_eq_true ha2
  have h2 : relKey b = kg.1 := of_decide_eq_true hb2
  rw [h1, h2]

/-- C9 witness: on the concrete three-duplicate-edge store the second
consolidation run returns the first run's store unchanged with count `0`. -/
theorem c9_consolidation_idempotent_witness :
    consolidate_duplicate_relationships
      (consolidate_duplicate_relationships exDb1 "E").1 "E"
      = ((consolidate_duplicate_relationships exDb1 "E").1, 0) :=
  c9_consolidation_idempotent exDb1 "E" (by decide)

/-! ## C6 — noise disposition -/

theorem find_noise_entities_eq (db : DB) :
    find_noise_entities db = (load_registry db).foldl (noiseStep db) ([], []) := rfl

theorem noiseStep_fst (db : DB)
    (p : List (String × String × String) × List (String × String × String))
    (e : EntityRow) :
    (noiseStep db p e).1 = p.1 ∨ (noiseStep db p e).1
      = p.1 ++ [(e.canonical_id, e.canonical_name, classify_noise e.canonical_name)] := by
  rw [noiseStep]
  split
  · exact Or.inl rfl
  · split
    · exact Or.inl rfl
    · dsimp only
      split
      · exact Or.inl rfl
      · exact Or.inr rfl

theorem noiseStep_snd (db : DB)
    (p : List (String × String × String) × List (String × String × String))
    (e : EntityRow) :
    (noiseStep db p e).2 = p.2 ∨ (noiseStep db p e).2
      = p.2 ++ [(e.canonical_id, e.canonical_name, classify_noise e.canonical_name)] := by
  rw [noiseStep]
  split
  · exact Or.inl rfl
  · split
    · exact Or.inl rfl
    · dsimp only
      split
      · exact Or.inr rfl
      · exact Or.inl rfl

theorem noiseFold_mono (db : DB) :
    ∀ (l : List EntityRow)
      (p : List (String × String × String) × List (String × String × String))
      (x : String × String × String),
      (x ∈ p.1 → x ∈ (l.foldl (noiseStep db) p).1) ∧
      (x ∈ p.2 → x ∈ (l.foldl (noiseStep db) p).2) := by
  intro l
  induction l with
  | nil => intro p x; exact ⟨id, id⟩
  | cons a l ih =>
    intro p x
    constructor
    · intro hx
      refine (ih (noiseStep db p a) x).1 ?_
      rcases noiseStep_fst db p a with h | h
      · rw [h]; exact hx
      · rw [h]; exact List.mem_append_left _ hx
    · intro hx
      refine (ih (noiseStep db p a) x).2 ?_
      rcases noiseStep_snd db p a with h | h
      · rw [h]; exact hx
      · rw [h]; exact List.mem_append_left _ hx

theorem noiseStep_sends (db : DB)
    (p : List (String × String × String) × List (String × String × String))
    (e : EntityRow)
    (hnoise : is_expanded_noise e.canonical_name = true)
    (hflag : pyTruthy ((metaGet e.metadata "exclude_from_analysis").getD .vNone)
      = false) :
    (get_prominence db e.canonical_id ≤ 50 →
      (e.canonical_id, e.canonical_name, classify_noise e.canonical_name)
        ∈ (noiseStep db p e).1) ∧
    (get_prominence db e.canonical_id > 50 →
      (e.canonical_id, e.canonical_name, classify_noise e.canonical_name)
        ∈ (noiseStep db p e).2) := by
  rw [noiseStep]
  rw [if_neg (by rw [hnoise]; simp)]
  rw [if_neg (by rw [hflag]; simp)]
  dsimp only
  constructor
  · intro hle
    rw [if_neg (by omega)]
    exact List.mem_append_right _ (List.mem_singleton.mpr rfl)
  · intro hgt
    rw [if_pos hgt]
    exact List.mem_append_right _ (List.mem_singleton.mpr rfl)

theorem noiseFold_mem (db : DB) :
    ∀ (l : List EntityRow)
      (p : List (String × String × String) × List (String × String × String))
      (e : EntityRow), e ∈ l →
      is_expanded_noise e.canonical_name = true →
      pyTruthy ((metaGet e.metadata "exclude_from_analysis").getD .vNone) = false →
      (get_prominence db e.canonical_id ≤ 50 →
        (e.canonical_id, e.canonical_name, classify_noise e.canonical_name)
          ∈ (l.foldl (noiseStep db) p).1) ∧
      (get_prominence db e.canonical_id > 50 →
        (e.canonical_id, e.canonical_name, classify_noise e.canonical_name)
          ∈ (l.foldl (noiseStep db) p).2) := by
  intro l
  induction l with
  | nil => intro p e he; simp at he
  | cons a l ih =>
    intro p e he hnoise hflag
    rcases List.mem_cons.mp he with he | he
    · subst he
      constructor
      · intro hle
        exact (noiseFold_mono db l (noiseStep db p e) _).1
          ((noiseStep_sends db p e hnoise hflag).1 hle)
      · intro hgt
        exact (noiseFold_mono db l (noiseStep db p e) _).2
          ((noiseStep_sends db p e hnoise hflag).2 hgt)
    · exact ih (noiseStep db p a) e he hnoise hflag

theorem foldl_filter_notMem {α : Type} (f : α → Nat) :
    ∀ (ids : List Nat) (l : List α) (x : α),
      x ∈ ids.foldl (fun acc rid => acc.filter (fun s => decide (f s ≠ rid))) l →
      x ∈ l ∧ ∀ rid ∈ ids, f x ≠ rid := by
  intro ids
  induction ids with
  | nil =>
    intro l x hx
    exact ⟨hx, by simp⟩
  | cons rid ids ih =>
    intro l x hx
    obtain ⟨hx1, hx2⟩ := ih (l.filter (fun s => decide (f s ≠ rid))) x hx
    obtain ⟨hx0, hne⟩ := List.mem_filter.mp hx1
    refine ⟨hx0, ?_⟩
    intro rid2 hr2
    rcases List.mem_cons.mp hr2 with hr2 | hr2
    · subst hr2
      simpa using hne
    · exact hx2 rid2 hr2

/-- C6: noise disposition.  For every registry entity the expanded noise
predicate classifies as noise and that is not already flagged: with
prominence at most 50 it is routed to the deletable list, above 50 to the
flaggable list; `delete_noise_entity` removes the entity together with every
edge touching it, every provenance row of such an edge and every resolution
log row for it; `flag_noise_entity` leaves relationships, provenance and
logs intact and sets `exclude_from_analysis` with a reason on the entity. -/
theorem c6_noise_disposition (db : DB) (e : EntityRow) (name reason now : String)
    (he : e ∈ load_registry db)
    (hnoise : is_expanded_noise e.canonical_name = true)
    (hflag : pyTruthy ((metaGet e.metadata "exclude_from_analysis").getD .vNone)
      = false) :
    (get_prominence db e.canonical_id ≤ 50 →
      (e.canonical_id, e.canonical_name, classify_noise e.canonical_name)
        ∈ (find_noise_entities db).1) ∧
    (get_prominence db e.canonical_id > 50 →
      (e.canonical_id, e.canonical_name, classify_noise e.canonical_name)
        ∈ (find_noise_entities db).2) ∧
    (∀ r ∈ ((delete_noise_entity db e.canonical_id name reason now
        false).1).relationships,
      touches e.canonical_id r = false) ∧
    (∀ s ∈ ((delete_noise_entity db e.canonical_id name reason now
        false).1).relationship_sources,
      ∀ r ∈ db.relationships, touches e.canonical_id r = true →
        s.relationship_id ≠ r.relationship_id) ∧
    (∀ lg ∈ ((delete_noise_entity db e.canonical_id name reason now
        false).1).entity_resolution_log,
      lg.canonical_id ≠ e.canonical_id) ∧
    (∀ en ∈ ((delete_noise_entity db e.canonical_id name reason now
        false).1).canonical_entities,
      en.canonical_id ≠ e.canonical_id) ∧
    (flag_noise_entity db e.canonical_id name reason now false).relationships
        = db.relationships ∧
    (flag_noise_entity db e.canonical_id name reason now false).relationship_sources
        = db.relationship_sources ∧
    (flag_noise_entity db e.canonical_id name reason now
        false).entity_resolution_log
        = db.entity_resolution_log ∧
    (∀ en ∈ (flag_noise_entity db e.canonical_id name reason now
        false).canonical_entities,
      en.canonical_id = e.canonical_id →
        metaGet en.metadata "exclude_from_analysis" = some (.vBool true) ∧
        metaGet en.metadata "exclude_reason" = some (.vStr reason)) := by
  have hm := noiseFold_mem db (load_registry db) ([], []) e he hnoise hflag
  refine ⟨?_, ?_, ?_, ?_, ?_, ?_, rfl, rfl, rfl, ?_⟩
  · intro hle
    rw [find_noise_entities_eq]
    exact hm.1 hle
  · intro hgt
    rw [find_noise_entities_eq]
    exact hm.2 hgt
  · intro r hr
    have hr2 : r ∈ (((db.relationships.filter (touches e.canonical_id)).map
        (fun r2 => r2.relationship_id)).foldl
        (fun rels rid => rels.filter (fun r2 => decide (r2.relationship_id ≠ rid)))
        db.relationships) := hr
    obtain ⟨hmem, hall⟩ := foldl_filter_notMem (fun r2 => r2.relationship_id)
      _ _ r hr2
    cases ht : touches e.canonical_id r
    · rfl
    · exfalso
      exact hall r.relationship_id
        (List.mem_map.mpr ⟨r, List.mem_filter.mpr ⟨hmem, ht⟩, rfl⟩) rfl
  · intro s hs r hr htouch
    have hs2 : s ∈ (((db.relationships.filter (touches e.canonical_id)).map
        (fun r2 => r2.relationship_id)).foldl
        (fun srcs rid => srcs.filter (fun s2 => decide (s2.relationship_id ≠ rid)))
        db.relationship_sources) := hs
    obtain ⟨_, hall⟩ := foldl_filter_notMem (fun s2 => s2.relationship_id)
      _ _ s hs2
    exact hall r.relationship_id
      (List.mem_map.mpr ⟨r, List.mem_filter.mpr ⟨hr, htouch⟩, rfl⟩)
  · intro lg hlg
    have hlg2 : lg ∈ db.entity_resolution_log.filter
        (fun l2 => decide (l2.canonical_id ≠ e.canonical_id)) := hlg
    have h2 := (List.mem_filter.mp hlg2).2
    simpa using h2
  · intro en hen
    have hen2 : en ∈ db.canonical_entities.filter
        (fun e2 => decide (e2.canonical_id ≠ e.canonical_id)) := hen
    have h2 := (List.mem_filter.mp hen2).2
    simpa using h2
  · intro en hen hcid
    have hen2 : en ∈ db.canonical_entities.map (fun e2 =>
        if e2.canonical_id = e.canonical_id then
          { e2 with
            metadata := metaSet (metaSet
              (match db.canonical_entities.find?
                  (fun x => x.canonical_id = e.canonical_id) with
                | some x => x.metadata
                | none => []) "exclude_from_analysis" (.vBool true))
              "exclude_reason" (.vStr reason),
            last_updated := now }
        else e2) := hen
    rcases List.mem_map.mp hen2 with ⟨e0, he0, heq⟩
    by_cases h0 : e0.canonical_id = e.canonical_id
    · rw [← heq, if_pos h0]
      constructor
      · rw [metaGet_metaSet, if_neg (by decide), metaGet_metaSet, if_pos rfl]
      · rw [metaGet_metaSet, if_pos rfl]
    · exfalso
      rw [← heq, if_neg h0] at hcid
      exact h0 hcid

/-- C6 witness: in the store holding only the zero-prominence entity
`"Unknown Person"`, that entity is routed to the deletable list. -/
theorem c6_noise_disposition_witness :
    ("PER-N", "Unknown Person", classify_noise "Unknown Person")
      ∈ (find_noise_entities exDb6).1 :=
  (c6_noise_disposition exDb6 (mkPerson "PER-N" "Unknown Person" [])
    "Unknown Person" "zero_prominence" "2025-01-01"
    (List.mem_singleton.mpr rfl) (by decide) rfl).1 (by decide)

end ECARE
